import Mathlib

/-!
Verification of the reactive dependency-tracking and batched update-scheduling
engine (Dependency / Observer / Watcher / Scheduler) of this repository.

The embedding is shallow: each JavaScript function of the source is translated
into an executable Lean definition over explicit state records.  Identifier
names follow the source (`reactiveSetter`, `addDep`, `cleanupDeps`,
`queueWatcher`, `flushSchedulerQueue`, `pushTarget`, ...).  External
collaborators (the component tree, `nextTick`, `handleError`, `warn`) are
modelled at their boundary: error reports and diagnostics become log entries,
`nextTick` scheduling becomes a boolean flag, and user code (getters, watch
callbacks, lifecycle-hook bodies) is represented by its observable outcome.
-/

/-! ## JavaScript values

A small universe of JavaScript runtime values, sufficient for the equality
semantics the observer layer relies on: numbers, the `NaN` value (the only
value with `x !== x`), object references (compared by identity, here a
numeric id), and `undefined`. -/

inductive JSVal where
  | num : Int → JSVal
  | nan : JSVal
  | obj : Nat → JSVal
  | undef : JSVal
deriving DecidableEq, Repr

/-- JavaScript strict equality `===` on `JSVal`: `NaN` is unequal to
everything, including itself; other values compare structurally (objects by
reference id). -/
def strictEq : JSVal → JSVal → Bool
  | JSVal.nan, _ => false
  | _, JSVal.nan => false
  | a, b => a == b

/-- A value is NaN-like exactly when it is not strictly equal to itself
(the `newVal !== newVal` test of the source). -/
def selfNeq (v : JSVal) : Bool := !strictEq v v

/-! ## Observer: `reactiveSetter` (src/core/observer/index.js, defineReactive)

The reactive property is modelled by its stored value, the set of object ids
that currently carry an `Observer` (`__ob__`), and a count of `dep.notify()`
calls.  The source path modelled is the common one: the property has no
pre-existing getter/setter to patch, and the non-production `customSetter`
(a dev-only warning hook) is external. -/

/-- State of one reactive property together with the global observed-object
registry and an instrumentation counter for `dep.notify()` calls. -/
structure PropS where
  val : JSVal
  observed : List Nat
  notifies : Nat
deriving DecidableEq, Repr

/-- Models `observe(value)`: attach an `Observer` to `value` if it is a
container (here: an object reference) that is not yet observed; primitives
and already-observed containers are left alone. -/
def observeVal : JSVal → List Nat → List Nat
  | JSVal.obj i, obs => if i ∈ obs then obs else obs ++ [i]
  | _, obs => obs

/-- Models the `set: function reactiveSetter(newVal)` accessor of
`defineReactive`: read the stored value, return without any effect when
`newVal === value || (newVal !== newVal && value !== value)`; otherwise store
the new value, run `observe(newVal)` on it, and call `dep.notify()` once. -/
def reactiveSetter (newVal : JSVal) (s : PropS) : PropS :=
  if strictEq newVal s.val || (selfNeq newVal && selfNeq s.val) then s
  else
    { val := newVal
      observed := observeVal newVal s.observed
      notifies := s.notifies + 1 }

/-! ## Watcher: value, dirty flag and error boundary
(src/core/observer/watcher.js)

`MWatcher` models the value/error axis of the `Watcher` class: the option
flags, the `dirty` flag, `value`, and instrumentation (`evalCount` counts
getter invocations, `reports` logs `handleError` calls, `cbCalls` logs
invocations of the watcher callback / `dep.notify` closure).  The
dependency-bookkeeping axis of the same class (`deps`/`newDeps` and the
`Dep.subs` lists touched by `pushTarget`/`cleanupDeps`) is modelled
separately below by `TrackS`.  A getter run is represented by its outcome:
`Except.ok v` when `this.getter.call(vm, vm)` returns `v`, `Except.error ()`
when it throws. -/

structure MWatcher where
  user : Bool
  computed : Bool
  sync : Bool
  deep : Bool
  active : Bool
  dirty : Bool
  /-- Length of `this.dep.subs` for a computed watcher (number of external
  subscribers of its own `Dep`). -/
  depSubsLen : Nat
  value : JSVal
  expression : String
  evalCount : Nat
  reports : List String
  cbCalls : List (JSVal × JSVal)
deriving DecidableEq, Repr

/-- Models `Watcher.prototype.get`: invoke the getter (counted by
`evalCount`); on a throw, a `user` watcher reports via `handleError` tagged
with the watcher expression and continues — the local `value` was never
assigned, so `undefined` is returned; a non-user watcher re-throws.  The
`pushTarget`/`popTarget`/`cleanupDeps` bracket of the source is the
dependency axis, modelled by `TrackS` below. -/
def Watcher.get (res : Except Unit JSVal) (w : MWatcher) :
    Except Unit (MWatcher × JSVal) :=
  let w1 := { w with evalCount := w.evalCount + 1 }
  match res with
  | Except.ok v => Except.ok (w1, v)
  | Except.error e =>
    if w1.user then
      Except.ok
        ({ w1 with
            reports := w1.reports ++ ["getter for watcher " ++ w1.expression] },
          JSVal.undef)
    else Except.error e

/-- The `isObject(value)` test of the source (containers compare by
reference, so they always qualify for callback invocation). -/
def isObj : JSVal → Bool
  | JSVal.obj _ => true
  | _ => false

/-- Models `Watcher.prototype.getAndInvoke(cb)`: evaluate via `get`; invoke
`cb(value, oldValue)` when the value changed under `!==`, is an object, or
the watcher is deep; update `value` and clear `dirty`.  The returned flag
says whether `cb` was invoked; the invocation itself is logged in
`cbCalls`.  (The dev-only try/catch around a user callback is not exercised
here: modelled callbacks do not throw.) -/
def Watcher.getAndInvoke (res : Except Unit JSVal) (w : MWatcher) :
    Except Unit (MWatcher × Bool) :=
  match Watcher.get res w with
  | Except.error e => Except.error e
  | Except.ok (w1, value) =>
    if !strictEq value w1.value || isObj value || w1.deep then
      Except.ok
        ({ w1 with
            value := value
            dirty := false
            cbCalls := w1.cbCalls ++ [(value, w1.value)] }, true)
    else Except.ok (w1, false)

/-- Models `Watcher.prototype.run`: no-op unless `active`, otherwise
`getAndInvoke(this.cb)`. -/
def Watcher.run (res : Except Unit JSVal) (w : MWatcher) :
    Except Unit MWatcher :=
  if w.active then
    match Watcher.getAndInvoke res w with
    | Except.ok (w1, _) => Except.ok w1
    | Except.error e => Except.error e
  else Except.ok w

/-- Models `Watcher.prototype.evaluate` (the computed read path): when
`dirty`, recompute via `get`, store the result and clear `dirty`; otherwise
return the cached `value` without touching the getter. -/
def Watcher.evaluate (res : Except Unit JSVal) (w : MWatcher) :
    Except Unit (MWatcher × JSVal) :=
  if w.dirty then
    match Watcher.get res w with
    | Except.ok (w1, v) =>
      Except.ok ({ w1 with value := v, dirty := false }, v)
    | Except.error e => Except.error e
  else Except.ok (w, w.value)

/-- Reaction of `Watcher.prototype.update`, abstracted: `silent` covers the
lazy computed branch (only `dirty` set) and the activated computed branch
when the value did not change; `notifiedDep` is the activated computed
branch calling `this.dep.notify()`; `ranSync` the synchronous branch;
`enqueued` the default `queueWatcher(this)` branch. -/
inductive UpdEff where
  | silent
  | notifiedDep
  | ranSync
  | enqueued
deriving DecidableEq, Repr

/-- Models `Watcher.prototype.update`: a computed watcher with an empty
`dep.subs` only sets `dirty = true`; a computed watcher with subscribers
recomputes via `getAndInvoke` and notifies its own `Dep` when the value
changed; a sync watcher runs immediately; the default case hands itself to
the scheduler. -/
def Watcher.update (res : Except Unit JSVal) (w : MWatcher) :
    Except Unit (MWatcher × UpdEff) :=
  if w.computed then
    if w.depSubsLen = 0 then
      Except.ok ({ w with dirty := true }, UpdEff.silent)
    else
      match Watcher.getAndInvoke res w with
      | Except.ok (w1, invoked) =>
        Except.ok (w1, if invoked then UpdEff.notifiedDep else UpdEff.silent)
      | Except.error e => Except.error e
  else if w.sync then
    match Watcher.run res w with
    | Except.ok w1 => Except.ok (w1, UpdEff.ranSync)
    | Except.error e => Except.error e
  else Except.ok (w, UpdEff.enqueued)

/-- A concrete user-defined watcher with a cached value of `42`, used to
refute the claim that a caught getter error makes the evaluation return the
previous cached value. -/
def userW : MWatcher :=
  MWatcher.mk true false false false true false 0 (JSVal.num 42) "user.exp" 3 [] []

/-! ## Dependency registry and Watcher dependency bookkeeping
(src/core/observer/dep.js and watcher.js)

Watchers and Dependencies are identified by their numeric ids.  A `Dep`'s
subscriber list is a plain list of watcher ids; `TrackS` bundles one
watcher's `deps`/`depIds`/`newDeps`/`newDepIds` bookkeeping with the global
map from dep id to subscriber list (only the subscriptions of the watcher
under study matter, but the lists are kept verbatim). -/

/-- A single `Dep` instance: its id and its `subs` array of watcher ids. -/
structure DepObj where
  id : Nat
  subs : List Nat
deriving DecidableEq, Repr

/-- Models `Dep.prototype.addSub`: `this.subs.push(sub)` — an unconditional
append. -/
def Dep.addSub (w : Nat) (d : DepObj) : DepObj :=
  { d with subs := d.subs ++ [w] }

/-- Models `Dep.prototype.removeSub`: `remove(this.subs, sub)` — the
`remove` util splices out the first occurrence if present. -/
def Dep.removeSub (w : Nat) (d : DepObj) : DepObj :=
  { d with subs := d.subs.erase w }

/-- One watcher's dependency bookkeeping (`deps`, `depIds`, `newDeps`,
`newDepIds`, with the JS Sets represented as duplicate-free lists) together
with the map from dep id to that dep's `subs` list. -/
structure TrackS where
  deps : List Nat
  depIds : List Nat
  newDeps : List Nat
  newDepIds : List Nat
  subsOf : Nat → List Nat

/-- `Dep.addSub` performed on the subscriber map at dep id `d`. -/
def addSubTo (w d : Nat) (subsOf : Nat → List Nat) : Nat → List Nat :=
  fun x => if x = d then subsOf d ++ [w] else subsOf x

/-- `Dep.removeSub` performed on the subscriber map at dep id `d`. -/
def removeSubFrom (w d : Nat) (subsOf : Nat → List Nat) : Nat → List Nat :=
  fun x => if x = d then (subsOf d).erase w else subsOf x

/-- Models `Watcher.prototype.addDep` for watcher `w` recording dep `d`:
skip if `d` is already in `newDepIds`; otherwise record it in
`newDepIds`/`newDeps` and call `dep.addSub(this)` unless `d` is also in the
previous `depIds`. -/
def Watcher.addDep (w : Nat) (s : TrackS) (d : Nat) : TrackS :=
  if d ∈ s.newDepIds then s
  else
    { s with
      newDepIds := s.newDepIds ++ [d]
      newDeps := s.newDeps ++ [d]
      subsOf := if d ∈ s.depIds then s.subsOf else addSubTo w d s.subsOf }

/-- The removal loop shared by `cleanupDeps` and `teardown`: walk `l` (the
old `deps`, iterated from the end in the source) and `removeSub` watcher `w`
from every dep whose id is not in `skip` (`cleanupDeps` skips the ids in
`newDepIds`; `teardown` skips nothing). -/
def removeStale (w : Nat) (skip : List Nat) (l : List Nat)
    (subsOf : Nat → List Nat) : Nat → List Nat :=
  l.foldl (fun acc d => if d ∈ skip then acc else removeSubFrom w d acc) subsOf

/-- Models `Watcher.prototype.cleanupDeps`: remove `w` from every dep in
`deps` that is not in `newDepIds`, then swap `deps`/`depIds` with
`newDeps`/`newDepIds` and clear the latter. -/
def Watcher.cleanupDeps (w : Nat) (s : TrackS) : TrackS :=
  { deps := s.newDeps
    depIds := s.newDepIds
    newDeps := []
    newDepIds := []
    subsOf := removeStale w s.newDepIds s.deps.reverse s.subsOf }

/-- One evaluation of the watcher's getter, seen from the dependency axis:
the sequence of dep ids read during `getter()` is replayed through `addDep`
(each read fires `dep.depend()` → `Dep.target.addDep(dep)`), and the
`finally` block of `get()` runs `cleanupDeps`. -/
def evalRound (w : Nat) (reads : List Nat) (s : TrackS) : TrackS :=
  Watcher.cleanupDeps w (reads.foldl (Watcher.addDep w) s)

/-- Well-formedness between evaluations: `depIds` mirrors `deps`, `deps` is
duplicate-free, the pending sets are empty, and watcher `w` sits in exactly
the subscriber lists of its current deps, once each. -/
def wfTrack (w : Nat) (s : TrackS) : Prop :=
  s.depIds = s.deps ∧ s.deps.Nodup ∧ s.newDeps = [] ∧ s.newDepIds = [] ∧
  ∀ d, (s.subsOf d).count w = if d ∈ s.deps then 1 else 0

/-! ## Watcher teardown (src/core/observer/watcher.js) -/

/-- Lifecycle wrapper: the dependency bookkeeping plus the `active` flag. -/
structure WLife where
  track : TrackS
  active : Bool

/-- Models `Watcher.prototype.teardown`: when still `active`, remove `w`
from the subscriber list of every dep in `deps` (iterated from the end,
skipping nothing) and clear `active`; otherwise a no-op.  The removal of
the watcher from `vm._watchers` is bookkeeping of the external owning
component and is outside this state. -/
def Watcher.teardown (w : Nat) (s : WLife) : WLife :=
  if s.active then
    { track :=
        { s.track with
            subsOf := removeStale w [] s.track.deps.reverse s.track.subsOf }
      active := false }
  else s

/-! ## Scheduler (the unnamed scheduler module, src/unnamed/part_000)

Watchers in the queue are represented by their ids (the id determines the
watcher; `before` hooks are external).  The effect of running a watcher is
abstracted by `eff : Nat → List Nat` — the ids that watcher's `run()`
synchronously hands to `queueWatcher` (via writes its callback performs) —
and by `active : Nat → Bool` (the `run()` no-op guard).  `processed` logs
every watcher the flush loop called `run()` on; `invoked` logs those that
were active, i.e. whose `getAndInvoke` actually executed. -/

/-- `MAX_UPDATE_COUNT`: one flush must not update a single watcher more
than 100 times, else a circular update is diagnosed. -/
def MAX_UPDATE_COUNT : Nat := 100

/-- Idle-phase scheduler state: the pending `queue`, the `has` membership
map, and the `waiting` flag (a `nextTick(flushSchedulerQueue)` has been
scheduled). -/
structure Sched where
  queue : List Nat
  has : Nat → Bool
  waiting : Bool

/-- The scheduler state `resetSchedulerState` produces (and the initial
state). -/
def emptySched : Sched :=
  { queue := [], has := fun _ => false, waiting := false }

/-- Models `queueWatcher` outside a flush (`flushing` false): skip when
`has[id]` is set; otherwise set it, push to the queue tail, and make sure a
flush is scheduled (`waiting`). -/
def queueWatcher (id : Nat) (s : Sched) : Sched :=
  if s.has id then s
  else
    { queue := s.queue ++ [id]
      has := fun x => if x = id then true else s.has x
      waiting := true }

/-- Flush-phase scheduler state: the live queue, `has`, the dev-mode
`circular` counters, the loop cursor `index`, the two run logs, and whether
the circular-update diagnostic was reported. -/
structure FState where
  queue : List Nat
  has : Nat → Bool
  circular : Nat → Nat
  index : Nat
  processed : List Nat
  invoked : List Nat
  warned : Bool

/-- `Array.prototype.splice(p, 0, x)`: insert `x` at position `p`,
clamped to the end of the list. -/
def insAt : Nat → Nat → List Nat → List Nat
  | 0, x, l => x :: l
  | _ + 1, x, [] => [x]
  | p + 1, x, a :: l => a :: insAt p x l

/-- The backward scan of `queueWatcher` during a flush:
`let i = queue.length - 1; while (i > index && queue[i].id > watcher.id) i--`;
the result is the final `i` (the caller inserts at `i + 1`). -/
def scanBack (q : List Nat) (index id : Nat) : Nat → Nat
  | 0 => 0
  | i + 1 =>
    if index < i + 1 ∧ id < q.getD (i + 1) 0 then scanBack q index id i
    else i + 1

/-- Models `queueWatcher` while `flushing` is true: skip when `has[id]` is
set; otherwise set it and splice the watcher in right after the last
position ahead of the cursor whose id exceeds the new id. -/
def queueDuringFlush (id : Nat) (s : FState) : FState :=
  if s.has id then s
  else
    { s with
        has := fun x => if x = id then true else s.has x
        queue :=
          insAt (scanBack s.queue s.index id (s.queue.length - 1) + 1) id s.queue }

/-- The `queueWatcher` calls a running watcher performs, in order. -/
def runEffects (ids : List Nat) (s : FState) : FState :=
  ids.foldl (fun t i => queueDuringFlush i t) s

/-- One iteration of the flush loop at cursor `index`: clear `has[id]`,
call `run()` (logged; its re-entrant enqueues applied when the watcher is
active), then in dev mode bump the circular counter when the watcher
re-enqueued itself and stop the loop (`false`) once it exceeds
`MAX_UPDATE_COUNT`, reporting the diagnostic via `warn` (logged in
`warned`). -/
def flushStep (dev : Bool) (eff : Nat → List Nat) (active : Nat → Bool)
    (s : FState) : FState × Bool :=
  if s.index < s.queue.length then
    let cur := s.queue.getD s.index 0
    let s1 :=
      { s with
          has := fun x => if x = cur then false else s.has x
          processed := s.processed ++ [cur] }
    let s2 :=
      if active cur then
        runEffects (eff cur) { s1 with invoked := s1.invoked ++ [cur] }
      else s1
    if dev && s2.has cur then
      let c := s2.circular cur + 1
      let s3 := { s2 with circular := fun x => if x = cur then c else s2.circular x }
      if MAX_UPDATE_COUNT < c then ({ s3 with warned := true }, false)
      else ({ s3 with index := s3.index + 1 }, true)
    else ({ s2 with index := s2.index + 1 }, true)
  else (s, false)

/-- The flush loop `for (index = 0; index < queue.length; index++)`,
fuelled (the source loop need not terminate when watchers keep re-enqueuing
themselves; theorems supply enough fuel). -/
def flushLoop (dev : Bool) (eff : Nat → List Nat) (active : Nat → Bool) :
    Nat → FState → FState
  | 0, s => s
  | fuel + 1, s =>
    if s.index < s.queue.length then
      let p := flushStep dev eff active s
      if p.2 then flushLoop dev eff active fuel p.1 else p.1
    else s

/-- Entry of `flushSchedulerQueue`: set `flushing`, sort the queue
ascending by id (`queue.sort((a, b) => a.id - b.id)`; ids are unique, so
any sort yields the same list — modelled by insertion sort), cursor to 0.
-/
def initFlush (s : Sched) : FState :=
  { queue := List.insertionSort (· ≤ ·) s.queue
    has := s.has
    circular := fun _ => 0
    index := 0
    processed := []
    invoked := []
    warned := false }

/-- The whole `flushSchedulerQueue`: run the loop, then
`resetSchedulerState()` unconditionally (also after a circular-update
abort); the post-flush `activated`/`updated` hook queues belong to the
external component-lifecycle collaborator. -/
def flushSchedulerQueue (dev : Bool) (eff : Nat → List Nat)
    (active : Nat → Bool) (fuel : Nat) (s : Sched) : FState × Sched :=
  (flushLoop dev eff active fuel (initFlush s), emptySched)

/-! ## Active-Computation Context (src/core/observer/dep.js `Dep.target` /
`targetStack`, and its users `callHook` / `getData` in lifecycle and state)

`Ctx` is the global `Dep.target` plus `targetStack`, extended with a log of
every subscription attributed by a property read (`dep.depend()` with a
non-null target calls `Dep.target.addDep(dep)`).  Hook and `data()` bodies
are flat scripts of primitive events: a reactive property read, entering or
leaving a nested undefined-target window (a nested `callHook`/`getData`),
or a throw (caught by the surrounding hook machinery). -/

/-- The global target state: `Dep.target`, `targetStack`, and the log of
`(dep id, watcher id)` read attributions. -/
structure Ctx where
  target : Option Nat
  stack : List Nat
  subsLog : List (Nat × Nat)
deriving DecidableEq, Repr

/-- Models `pushTarget(_target)`: push the current `Dep.target` onto the
stack only when it is non-null, then install `_target`. -/
def pushTarget (t : Option Nat) (c : Ctx) : Ctx :=
  { c with
      stack :=
        match c.target with
        | some x => c.stack ++ [x]
        | none => c.stack
      target := t }

/-- Models `popTarget()`: `Dep.target = targetStack.pop()` — `undefined`
when the stack is empty. -/
def popTarget (c : Ctx) : Ctx :=
  { c with target := c.stack.getLast?, stack := c.stack.dropLast }

/-- A reactive property read: `dep.depend()` attributes the read to the
current `Dep.target` when there is one. -/
def doRead (d : Nat) (c : Ctx) : Ctx :=
  match c.target with
  | some w => { c with subsLog := c.subsLog ++ [(d, w)] }
  | none => c

/-- One primitive event inside a hook or `data()` body. -/
inductive HAct where
  | readProp : Nat → HAct
  | enterWin : HAct
  | leaveWin : HAct
  | fail : HAct
deriving DecidableEq, Repr

/-- Run a handler body: reads attribute to the current target, `enterWin` /
`leaveWin` are the `pushTarget()` / `popTarget()` bracket of a nested
`callHook`/`getData`, and `fail` is a throw — the rest of the body is
skipped (the error is caught by `callHook`'s per-handler try/catch,
respectively `getData`'s catch). -/
def runHandler (c : Ctx) : List HAct → Ctx
  | [] => c
  | HAct.readProp d :: rest => runHandler (doRead d c) rest
  | HAct.enterWin :: rest => runHandler (pushTarget none c) rest
  | HAct.leaveWin :: rest => runHandler (popTarget c) rest
  | HAct.fail :: _ => c

/-- Models `callHook(vm, hook)`: `pushTarget()` (disable dependency
collection), run every handler with a per-handler try/catch, `popTarget()`.
-/
def callHook (handlers : List (List HAct)) (c : Ctx) : Ctx :=
  popTarget (handlers.foldl runHandler (pushTarget none c))

/-- Models `getData(data, vm)`: `pushTarget()`, run the `data()` body (a
throw is caught and `{}` returned), `popTarget()` in the `finally`. -/
def getData (body : List HAct) (c : Ctx) : Ctx :=
  popTarget (runHandler (pushTarget none c) body)


/-- Scheduler state during a circular flush of a single self-re-enqueuing
watcher `w`, after `k` completed loop iterations: the queue holds `k + 1`
copies of `w` (each run re-inserted it behind the cursor), the cursor is at
`k`, `w` has been run `k` times, and the dev-mode circular counter is `k`.
-/
def circState (w k : Nat) : FState :=
  { queue := List.replicate (k + 1) w
    has := fun x => if x = w then true else false
    circular := fun x => if x = w then k else 0
    index := k
    processed := List.replicate k w
    invoked := List.replicate k w
    warned := false }

/-- The flush state at which the circular-update guard aborts the loop: the
101st iteration re-enqueued `w` again, the counter reached 101 (exceeding
`MAX_UPDATE_COUNT`), the diagnostic was reported, and the loop stopped with
the queue not drained. -/
def circFinal (w : Nat) : FState :=
  { queue := List.replicate 102 w
    has := fun x => if x = w then true else false
    circular := fun x => if x = w then 101 else 0
    index := 100
    processed := List.replicate 101 w
    invoked := List.replicate 101 w
    warned := true }


/-- C4: writing a value that is NaN-aware-strict-equal to the stored one is a
complete no-op (state unchanged, `notify` not called); writing an unequal
value stores it, observes it when it is an unobserved container, and calls
`notify` exactly once. -/
theorem c4_reactive_setter_notify (newVal : JSVal) (s : PropS) :
    ((strictEq newVal s.val = true ∨ (selfNeq newVal = true ∧ selfNeq s.val = true)) →
      reactiveSetter newVal s = s) ∧
    ((strictEq newVal s.val = false ∧ ¬(selfNeq newVal = true ∧ selfNeq s.val = true)) →
      (reactiveSetter newVal s).val = newVal ∧
      (reactiveSetter newVal s).notifies = s.notifies + 1 ∧
      (reactiveSetter newVal s).observed = observeVal newVal s.observed ∧
      (∀ i, newVal = JSVal.obj i → i ∉ s.observed →
        (reactiveSetter newVal s).observed = s.observed ++ [i])) := by
  constructor
  · intro h
    rcases h with h | ⟨h1, h2⟩
    · simp [reactiveSetter, h]
    · simp [reactiveSetter, h1, h2]
  · intro ⟨h1, h2⟩
    have hcond : (strictEq newVal s.val || (selfNeq newVal && selfNeq s.val)) = false := by
      cases hn : selfNeq newVal with
      | false => simp [h1, hn]
      | true =>
        cases hv : selfNeq s.val with
        | false => simp [h1, hn, hv]
        | true => exact absurd ⟨hn, hv⟩ h2
    refine ⟨?_, ?_, ?_, ?_⟩
    · simp [reactiveSetter, hcond]
    · simp [reactiveSetter, hcond]
    · simp [reactiveSetter, hcond]
    · intro i hv hmem
      subst hv
      simp [reactiveSetter, hcond, observeVal, hmem]

/-- Witness for C4 at concrete inputs: writing `num 3` over `num 2` notifies
once and stores it; the hypothesis side is discharged at those values. -/
theorem c4_reactive_setter_notify_witness :
    (strictEq (JSVal.num 3) (PropS.mk (JSVal.num 2) [] 0).val = false ∧
      ¬(selfNeq (JSVal.num 3) = true ∧ selfNeq (PropS.mk (JSVal.num 2) [] 0).val = true)) ∧
    ((reactiveSetter (JSVal.num 3) (PropS.mk (JSVal.num 2) [] 0)).val = JSVal.num 3 ∧
      (reactiveSetter (JSVal.num 3) (PropS.mk (JSVal.num 2) [] 0)).notifies =
        (PropS.mk (JSVal.num 2) [] 0).notifies + 1 ∧
      (reactiveSetter (JSVal.num 3) (PropS.mk (JSVal.num 2) [] 0)).observed =
        observeVal (JSVal.num 3) (PropS.mk (JSVal.num 2) [] 0).observed ∧
      (∀ i, JSVal.num 3 = JSVal.obj i → i ∉ (PropS.mk (JSVal.num 2) [] 0).observed →
        (reactiveSetter (JSVal.num 3) (PropS.mk (JSVal.num 2) [] 0)).observed =
          (PropS.mk (JSVal.num 2) [] 0).observed ++ [i])) :=
  ⟨by decide,
    (c4_reactive_setter_notify (JSVal.num 3) (PropS.mk (JSVal.num 2) [] 0)).2 (by decide)⟩

/-- C5: a lazy (zero-subscriber) computed watcher reacts to a dependency
change by setting `dirty` only — no recomputation, no notification, no
enqueue; the next read recomputes exactly once and returns the fresh getter
value; further reads return the cached value without recomputation. -/
theorem c5_lazy_computed_watcher (w : MWatcher) (res res2 : Except Unit JSVal)
    (v1 : JSVal) (hc : w.computed = true) (hs : w.depSubsLen = 0)
    (hd : w.dirty = false) :
    Watcher.update res w = Except.ok ({ w with dirty := true }, UpdEff.silent) ∧
    Watcher.evaluate (Except.ok v1) { w with dirty := true } =
      Except.ok
        ({ w with dirty := false, value := v1, evalCount := w.evalCount + 1 }, v1) ∧
    Watcher.evaluate res2
        { w with dirty := false, value := v1, evalCount := w.evalCount + 1 } =
      Except.ok
        ({ w with dirty := false, value := v1, evalCount := w.evalCount + 1 }, v1) := by
  refine ⟨?_, ?_, ?_⟩
  · simp [Watcher.update, hc, hs]
  · simp [Watcher.evaluate, Watcher.get]
  · simp [Watcher.evaluate]

/-- Witness for C5 at a concrete lazy computed watcher: the update marks it
dirty without evaluation, the first read recomputes to `num 12`, the second
read is served from cache. -/
theorem c5_lazy_computed_watcher_witness :
    ((MWatcher.mk false true false false true false 0 (JSVal.num 10) "double" 1 [] []).computed = true ∧
      (MWatcher.mk false true false false true false 0 (JSVal.num 10) "double" 1 [] []).depSubsLen = 0 ∧
      (MWatcher.mk false true false false true false 0 (JSVal.num 10) "double" 1 [] []).dirty = false) ∧
    (Watcher.update (Except.ok (JSVal.num 12))
        (MWatcher.mk false true false false true false 0 (JSVal.num 10) "double" 1 [] []) =
      Except.ok
        ({ MWatcher.mk false true false false true false 0 (JSVal.num 10) "double" 1 [] [] with
            dirty := true }, UpdEff.silent) ∧
      Watcher.evaluate (Except.ok (JSVal.num 12))
          { MWatcher.mk false true false false true false 0 (JSVal.num 10) "double" 1 [] [] with
              dirty := true } =
        Except.ok
          ({ MWatcher.mk false true false false true false 0 (JSVal.num 10) "double" 1 [] [] with
              dirty := false, value := JSVal.num 12,
              evalCount :=
                (MWatcher.mk false true false false true false 0 (JSVal.num 10) "double" 1 [] []).evalCount + 1 },
            JSVal.num 12) ∧
      Watcher.evaluate (Except.ok (JSVal.num 99))
          { MWatcher.mk false true false false true false 0 (JSVal.num 10) "double" 1 [] [] with
              dirty := false, value := JSVal.num 12,
              evalCount :=
                (MWatcher.mk false true false false true false 0 (JSVal.num 10) "double" 1 [] []).evalCount + 1 } =
        Except.ok
          ({ MWatcher.mk false true false false true false 0 (JSVal.num 10) "double" 1 [] [] with
              dirty := false, value := JSVal.num 12,
              evalCount :=
                (MWatcher.mk false true false false true false 0 (JSVal.num 10) "double" 1 [] []).evalCount + 1 },
            JSVal.num 12)) :=
  ⟨⟨rfl, rfl, rfl⟩,
    c5_lazy_computed_watcher
      (MWatcher.mk false true false false true false 0 (JSVal.num 10) "double" 1 [] [])
      (Except.ok (JSVal.num 12)) (Except.ok (JSVal.num 99)) (JSVal.num 12)
      rfl rfl rfl⟩

/-- C6 counterexample: for a user watcher whose cached `value` is `num 42`,
a throwing getter makes `Watcher.get` return `undefined` (the local `value`
of the source is never assigned), not the previous cached value `num 42`. -/
theorem c6_get_error_counterexample :
    Watcher.get (Except.error ()) userW =
      Except.ok
        ({ userW with
            evalCount := 4
            reports := ["getter for watcher user.exp"] }, JSVal.undef) ∧
    userW.value = JSVal.num 42 ∧ JSVal.undef ≠ JSVal.num 42 := by
  refine ⟨rfl, rfl, by decide⟩

/-- C6 (amended): a throwing getter of a user watcher is caught at the
watcher boundary, reported via `handleError` tagged with the watcher
expression, and execution continues with the evaluation returning
`undefined` (not the previous cached value); a non-user watcher re-throws to
the caller; a non-throwing getter never reports. -/
theorem c6_get_error_boundary (w : MWatcher) :
    (w.user = true →
      Watcher.get (Except.error ()) w =
        Except.ok
          ({ w with
              evalCount := w.evalCount + 1
              reports := w.reports ++ ["getter for watcher " ++ w.expression] },
            JSVal.undef)) ∧
    (w.user = false → Watcher.get (Except.error ()) w = Except.error ()) ∧
    (∀ v, Watcher.get (Except.ok v) w =
      Except.ok ({ w with evalCount := w.evalCount + 1 }, v)) := by
  refine ⟨?_, ?_, ?_⟩
  · intro hu; simp [Watcher.get, hu]
  · intro hu; simp [Watcher.get, hu]
  · intro v; simp [Watcher.get]

/-- Witness for C6 (amended) at `userW`: the hypothesis `userW.user = true`
holds and the caught-and-reported outcome is obtained from the theorem. -/
theorem c6_get_error_boundary_witness :
    userW.user = true ∧
    Watcher.get (Except.error ()) userW =
      Except.ok
        ({ userW with
            evalCount := userW.evalCount + 1
            reports := userW.reports ++ ["getter for watcher " ++ userW.expression] },
          JSVal.undef) :=
  ⟨rfl, (c6_get_error_boundary userW).1 rfl⟩

/-- Folding `addDep` over the reads of one evaluation: `deps`/`depIds` stay
untouched, `newDeps` collects the distinct reads in first-occurrence order,
and `w` is subscribed to exactly the old deps plus the newly read deps. -/
theorem addDep_foldl (w : Nat) (D : List Nat) (reads : List Nat) :
    ∀ (m : TrackS), m.deps = D → m.depIds = D →
      m.newDeps = m.newDepIds → m.newDepIds.Nodup →
      (∀ d, (m.subsOf d).count w = if d ∈ D ∨ d ∈ m.newDepIds then 1 else 0) →
      (reads.foldl (Watcher.addDep w) m).deps = D ∧
      (reads.foldl (Watcher.addDep w) m).depIds = D ∧
      (reads.foldl (Watcher.addDep w) m).newDeps =
        (reads.foldl (Watcher.addDep w) m).newDepIds ∧
      (reads.foldl (Watcher.addDep w) m).newDepIds.Nodup ∧
      (∀ d, d ∈ (reads.foldl (Watcher.addDep w) m).newDepIds ↔
        d ∈ m.newDepIds ∨ d ∈ reads) ∧
      (∀ d, ((reads.foldl (Watcher.addDep w) m).subsOf d).count w =
        if d ∈ D ∨ d ∈ (reads.foldl (Watcher.addDep w) m).newDepIds then 1 else 0) := by
  induction reads with
  | nil =>
    intro m h1 h2 h3 h4 h5
    refine ⟨h1, h2, h3, h4, ?_, ?_⟩
    · intro d; simp
    · intro d; simpa using h5 d
  | cons a reads ih =>
    intro m h1 h2 h3 h4 h5
    by_cases ha : a ∈ m.newDepIds
    · have hstep : Watcher.addDep w m a = m := by
        simp [Watcher.addDep, ha]
      have := ih m h1 h2 h3 h4 h5
      rcases this with ⟨g1, g2, g3, g4, g5, g6⟩
      rw [List.foldl_cons, hstep]
      refine ⟨g1, g2, g3, g4, ?_, g6⟩
      intro d
      rw [g5 d]
      constructor
      · rintro (hd | hd)
        · exact Or.inl hd
        · exact Or.inr (List.mem_cons_of_mem _ hd)
      · rintro (hd | hd)
        · exact Or.inl hd
        · rcases List.mem_cons.mp hd with hd | hd
          · exact Or.inl (hd ▸ ha)
          · exact Or.inr hd
    · have hstep : Watcher.addDep w m a =
          { m with
            newDepIds := m.newDepIds ++ [a]
            newDeps := m.newDeps ++ [a]
            subsOf := if a ∈ m.depIds then m.subsOf else addSubTo w a m.subsOf } := by
        simp [Watcher.addDep, ha]
      set m1 : TrackS :=
        { m with
          newDepIds := m.newDepIds ++ [a]
          newDeps := m.newDeps ++ [a]
          subsOf := if a ∈ m.depIds then m.subsOf else addSubTo w a m.subsOf } with hm1
      have k1 : m1.deps = D := h1
      have k2 : m1.depIds = D := h2
      have k3 : m1.newDeps = m1.newDepIds := by
        show m.newDeps ++ [a] = m.newDepIds ++ [a]
        rw [h3]
      have k4 : m1.newDepIds.Nodup := by
        show (m.newDepIds ++ [a]).Nodup
        simp [List.nodup_append, h4, ha]
      have k5 : ∀ d, (m1.subsOf d).count w =
          if d ∈ D ∨ d ∈ m1.newDepIds then 1 else 0 := by
        intro d
        show ((if a ∈ m.depIds then m.subsOf else addSubTo w a m.subsOf) d).count w =
          if d ∈ D ∨ d ∈ m.newDepIds ++ [a] then 1 else 0
        by_cases haD : a ∈ m.depIds
        · rw [if_pos haD, h5 d]
          have haD' : a ∈ D := h2 ▸ haD
          by_cases hdD : d ∈ D
          · simp [hdD]
          · have hda : d ≠ a := fun h => hdD (h ▸ haD')
            simp [hdD, hda]
        · rw [if_neg haD]
          have haD' : a ∉ D := fun h => haD (h2 ▸ h)
          by_cases hda : d = a
          · subst hda
            have : (addSubTo w d m.subsOf) d = m.subsOf d ++ [w] := by
              simp [addSubTo]
            rw [this, List.count_append, h5 d]
            simp [haD', ha]
          · have : (addSubTo w a m.subsOf) d = m.subsOf d := by
              simp [addSubTo, hda]
            rw [this, h5 d]
            simp [hda]
      have := ih m1 k1 k2 k3 k4 k5
      rcases this with ⟨g1, g2, g3, g4, g5, g6⟩
      rw [List.foldl_cons, hstep]
      refine ⟨g1, g2, g3, g4, ?_, g6⟩
      intro d
      rw [g5 d]
      show d ∈ m.newDepIds ++ [a] ∨ d ∈ reads ↔ d ∈ m.newDepIds ∨ d ∈ a :: reads
      simp only [List.mem_append, List.mem_cons, List.mem_singleton]
      tauto

/-- Effect of the removal loop on watcher `w`'s subscription count: each dep
in `l` (visited once, `l` duplicate-free) that is not in `skip` loses one
occurrence of `w`; every other subscriber list is untouched. -/
theorem removeStale_count (w : Nat) (skip : List Nat) :
    ∀ (l : List Nat), l.Nodup → ∀ (subsOf : Nat → List Nat) (d : Nat),
      ((removeStale w skip l subsOf) d).count w =
        if d ∈ l ∧ d ∉ skip then ((subsOf d).count w) - 1
        else (subsOf d).count w := by
  intro l
  induction l with
  | nil =>
    intro _ subsOf d
    simp [removeStale]
  | cons a l ih =>
    intro hnd subsOf d
    have hnd' : l.Nodup := (List.nodup_cons.mp hnd).2
    have hanl : a ∉ l := (List.nodup_cons.mp hnd).1
    have hunf : removeStale w skip (a :: l) subsOf =
        removeStale w skip l
          (if a ∈ skip then subsOf else removeSubFrom w a subsOf) := by
      simp [removeStale, List.foldl_cons]
    rw [hunf, ih hnd' _ d]
    by_cases hda : d = a
    · subst hda
      have hdl : d ∉ l := hanl
      by_cases hsk : d ∈ skip
      · simp [hdl, hsk]
      · have : (removeSubFrom w d subsOf) d = (subsOf d).erase w := by
          simp [removeSubFrom]
        simp [hdl, hsk, this, List.count_erase_self]
    · have heq : ∀ f : Nat → List Nat,
          (if a ∈ skip then f else removeSubFrom w a f) d = f d := by
        intro f
        by_cases hsk : a ∈ skip
        · simp [hsk]
        · simp [hsk, removeSubFrom, hda]
      rw [heq subsOf]
      by_cases hdl : d ∈ l
      · simp [hdl, hda]
      · simp [hdl, hda]

/-- Full specification of one evaluation round on the dependency axis:
`deps`/`depIds` become exactly the set of reads, the watcher is subscribed
once to each read dep and to nothing else, and well-formedness is
preserved. -/
theorem evalRound_spec (w : Nat) (reads : List Nat) (s : TrackS)
    (hwf : wfTrack w s) :
    wfTrack w (evalRound w reads s) ∧
    (∀ d, d ∈ (evalRound w reads s).deps ↔ d ∈ reads) ∧
    (∀ d, ((evalRound w reads s).subsOf d).count w =
      if d ∈ reads then 1 else 0) ∧
    (∀ d, d ∈ s.deps → d ∉ reads → w ∉ (evalRound w reads s).subsOf d) := by
  rcases hwf with ⟨h1, h2, h3, h4, h5⟩
  have hbase :
      (∀ d, (s.subsOf d).count w = if d ∈ s.deps ∨ d ∈ s.newDepIds then 1 else 0) := by
    intro d
    rw [h5 d, h4]
    simp
  have hfold := addDep_foldl w s.deps reads s rfl h1 (h3.trans h4.symm)
    (by rw [h4]; exact List.nodup_nil) hbase
  rcases hfold with ⟨g1, g2, g3, g4, g5, g6⟩
  set m := reads.foldl (Watcher.addDep w) s with hm
  have hmem : ∀ d, d ∈ m.newDepIds ↔ d ∈ reads := by
    intro d
    rw [g5 d, h4]
    simp
  have hrevnd : m.deps.reverse.Nodup := by
    rw [g1]
    exact List.nodup_reverse.mpr h2
  have hsub : ∀ d, ((evalRound w reads s).subsOf d).count w =
      if d ∈ reads then 1 else 0 := by
    intro d
    show ((removeStale w m.newDepIds m.deps.reverse m.subsOf) d).count w = _
    rw [removeStale_count w m.newDepIds m.deps.reverse hrevnd m.subsOf d]
    by_cases hdn : d ∈ m.newDepIds
    · have hdr : d ∈ reads := (hmem d).mp hdn
      have : ¬(d ∈ m.deps.reverse ∧ d ∉ m.newDepIds) := fun h => h.2 hdn
      rw [if_neg this, g6 d, if_pos (Or.inr hdn), if_pos hdr]
    · have hdr : d ∉ reads := fun h => hdn ((hmem d).mpr h)
      rw [if_neg hdr]
      by_cases hdD : d ∈ m.deps.reverse
      · have hdD' : d ∈ s.deps := by
          rw [g1] at hdD
          exact List.mem_reverse.mp hdD
        rw [if_pos ⟨hdD, hdn⟩, g6 d, if_pos (Or.inl hdD')]
      · have hdD' : d ∉ s.deps := by
          intro h
          exact hdD (by rw [g1]; exact List.mem_reverse.mpr h)
        rw [if_neg (fun h => hdD h.1), g6 d, if_neg (by
          rintro (h | h)
          · exact hdD' h
          · exact hdn h)]
  have hdeps : (evalRound w reads s).deps = m.newDepIds := g3
  refine ⟨⟨g3.symm, ?_, rfl, rfl, ?_⟩, ?_, hsub, ?_⟩
  · show m.newDeps.Nodup
    rw [g3]
    exact g4
  · intro d
    rw [hsub d, hdeps]
    by_cases hdr : d ∈ reads
    · rw [if_pos hdr, if_pos ((hmem d).mpr hdr)]
    · rw [if_neg hdr, if_neg (fun h => hdr ((hmem d).mp h))]
  · intro d
    rw [hdeps, hmem d]
  · intro d _ hdr
    have := hsub d
    rw [if_neg hdr] at this
    exact List.count_eq_zero.mp this

/-- C1: after an evaluation that read exactly the dep ids in `reads`, the
watcher's `deps`/`depIds` equal the set of deps read during that evaluation
(the pending set is swapped in, never merged with the old one), the watcher
is subscribed exactly once to each read dep, and every dep of the previous
evaluation that was not read again has the watcher removed from its
subscriber list — so writes to a no-longer-read property no longer reach
this watcher; well-formedness is preserved for the next round. -/
theorem c1_deps_swap_exact (w : Nat) (reads : List Nat) (s : TrackS)
    (hwf : wfTrack w s) :
    wfTrack w (evalRound w reads s) ∧
    (∀ d, d ∈ (evalRound w reads s).deps ↔ d ∈ reads) ∧
    (∀ d, ((evalRound w reads s).subsOf d).count w =
      if d ∈ reads then 1 else 0) ∧
    (∀ d, d ∈ s.deps → d ∉ reads → w ∉ (evalRound w reads s).subsOf d) :=
  evalRound_spec w reads s hwf

/-- Witness for C1: from the empty well-formed state, watcher `7` evaluating
with reads `[1, 2, 1]` ends up subscribed exactly to deps `1` and `2`. -/
theorem c1_deps_swap_exact_witness :
    wfTrack 7 (TrackS.mk [] [] [] [] (fun _ => [])) ∧
    (wfTrack 7 (evalRound 7 [1, 2, 1] (TrackS.mk [] [] [] [] (fun _ => []))) ∧
      (∀ d, d ∈ (evalRound 7 [1, 2, 1] (TrackS.mk [] [] [] [] (fun _ => []))).deps ↔
        d ∈ [1, 2, 1]) ∧
      (∀ d, ((evalRound 7 [1, 2, 1] (TrackS.mk [] [] [] [] (fun _ => []))).subsOf d).count 7 =
        if d ∈ [1, 2, 1] then 1 else 0) ∧
      (∀ d, d ∈ (TrackS.mk [] [] [] [] (fun _ => [])).deps → d ∉ [1, 2, 1] →
        7 ∉ (evalRound 7 [1, 2, 1] (TrackS.mk [] [] [] [] (fun _ => []))).subsOf d)) :=
  have hwf : wfTrack 7 (TrackS.mk [] [] [] [] (fun _ => [])) :=
    ⟨rfl, List.nodup_nil, rfl, rfl, fun d => by simp⟩
  ⟨hwf, c1_deps_swap_exact 7 [1, 2, 1] (TrackS.mk [] [] [] [] (fun _ => [])) hwf⟩

/-- C10 counterexample: with watcher `5` currently evaluating, a lifecycle
hook whose body contains a nested `pushTarget()`/`popTarget()` window (for
example a nested `callHook` or `getData`) and then reads property `0`
attributes that read to watcher `5` — the read inside the hook does
subscribe a watcher.  (`pushTarget()` pushed nothing because `Dep.target`
was already saved, so the inner `popTarget()` restored watcher `5` too
early; the final context also loses the original target.) -/
theorem c10_hook_subscribes_counterexample :
    (callHook [[HAct.enterWin, HAct.leaveWin, HAct.readProp 0]]
        (Ctx.mk (some 5) [] [])).subsLog = [(0, 5)] ∧
    (callHook [[HAct.enterWin, HAct.leaveWin, HAct.readProp 0]]
        (Ctx.mk (some 5) [] [])).target = none := by
  constructor <;> rfl

/-- Auxiliary: with a null `Dep.target` and no nested window events, a
handler body leaves the context untouched — reads attribute to nothing,
and a throw only cuts the body short. -/
theorem runHandler_target_none :
    ∀ (acts : List HAct) (c : Ctx), c.target = none →
      (∀ a ∈ acts, a ≠ HAct.enterWin ∧ a ≠ HAct.leaveWin) →
      runHandler c acts = c := by
  intro acts
  induction acts with
  | nil => intro c _ _; rfl
  | cons a rest ih =>
    intro c hc ha
    match a with
    | HAct.readProp d =>
      have : doRead d c = c := by simp [doRead, hc]
      rw [runHandler, this]
      exact ih c hc fun x hx => ha x (List.mem_cons_of_mem _ hx)
    | HAct.enterWin =>
      exact absurd rfl (ha HAct.enterWin (List.mem_cons_self _ _)).1
    | HAct.leaveWin =>
      exact absurd rfl (ha HAct.leaveWin (List.mem_cons_self _ _)).2
    | HAct.fail => rfl

/-- C10 (amended): provided the hook handlers and the `data()` body contain
no nested target window (no inner `callHook`/`getData`), and the entry
context is not itself mid-window (a null target only with an empty stack),
`callHook` and `getData` restore the context exactly — property reads
inside them never subscribe any watcher, the prior target is restored, and
this holds even when the user code throws. -/
theorem c10_hook_reads_no_subscribe (handlers : List (List HAct))
    (body : List HAct) (c : Ctx) (hwf : c.target = none → c.stack = [])
    (hh : ∀ h ∈ handlers, ∀ a ∈ h, a ≠ HAct.enterWin ∧ a ≠ HAct.leaveWin)
    (hb : ∀ a ∈ body, a ≠ HAct.enterWin ∧ a ≠ HAct.leaveWin) :
    callHook handlers c = c ∧ getData body c = c := by
  have hpush : (pushTarget none c).target = none := rfl
  have hfold : handlers.foldl runHandler (pushTarget none c) = pushTarget none c := by
    induction handlers with
    | nil => rfl
    | cons h hs ih =>
      rw [List.foldl_cons,
        runHandler_target_none h (pushTarget none c) hpush
          (hh h (List.mem_cons_self _ _))]
      exact ih fun x hx => hh x (List.mem_cons_of_mem _ hx)
  have hpop : popTarget (pushTarget none c) = c := by
    obtain ⟨t, st, lg⟩ := c
    cases t with
    | some x =>
      simp [popTarget, pushTarget, List.getLast?_concat, List.dropLast_concat]
    | none =>
      have hst : st = [] := hwf rfl
      subst hst
      simp [popTarget, pushTarget]
  constructor
  · show popTarget (handlers.foldl runHandler (pushTarget none c)) = c
    rw [hfold, hpop]
  · show popTarget (runHandler (pushTarget none c) body) = c
    rw [runHandler_target_none body (pushTarget none c) hpush hb, hpop]

/-- Witness for C10 (amended): a hook handler that reads property `3`,
throws, and reads `4`, run while watcher `9` is evaluating, leaves the
context — including the subscription log — exactly as it was. -/
theorem c10_hook_reads_no_subscribe_witness :
    ((Ctx.mk (some 9) [] []).target = none → (Ctx.mk (some 9) [] []).stack = []) ∧
    (∀ h ∈ [[HAct.readProp 3, HAct.fail, HAct.readProp 4]],
      ∀ a ∈ h, a ≠ HAct.enterWin ∧ a ≠ HAct.leaveWin) ∧
    (∀ a ∈ [HAct.readProp 3], a ≠ HAct.enterWin ∧ a ≠ HAct.leaveWin) ∧
    (callHook [[HAct.readProp 3, HAct.fail, HAct.readProp 4]]
        (Ctx.mk (some 9) [] []) = Ctx.mk (some 9) [] [] ∧
      getData [HAct.readProp 3] (Ctx.mk (some 9) [] []) = Ctx.mk (some 9) [] []) :=
  ⟨by decide, by decide, by decide,
    c10_hook_reads_no_subscribe [[HAct.readProp 3, HAct.fail, HAct.readProp 4]]
      [HAct.readProp 3] (Ctx.mk (some 9) [] []) (by decide) (by decide) (by decide)⟩

/-- Well-formedness of the dependency bookkeeping survives any sequence of
evaluation rounds. -/
theorem wfTrack_foldRounds (w : Nat) (rounds : List (List Nat)) :
    ∀ (s : TrackS), wfTrack w s →
      wfTrack w (rounds.foldl (fun t r => evalRound w r t) s) := by
  induction rounds with
  | nil => intro s h; exact h
  | cons r rounds ih =>
    intro s h
    exact ih (evalRound w r s) (evalRound_spec w r s h).1

/-- C7 counterexample: `Dep.addSub` is not idempotent — adding watcher `5`
to a dep whose `subs` already contains `5` appends a duplicate instead of
leaving the list unchanged. -/
theorem c7_addSub_not_idempotent_counterexample :
    5 ∈ (DepObj.mk 0 [5]).subs ∧
    (Dep.addSub 5 (DepObj.mk 0 [5])).subs = [5, 5] ∧
    Dep.addSub 5 (DepObj.mk 0 [5]) ≠ DepObj.mk 0 [5] := by
  refine ⟨by decide, rfl, by decide⟩

/-- C7 (amended): `Dep.addSub` itself is an unconditional append (not
idempotent); the at-most-once invariant is enforced one level up, by
`Watcher.addDep`'s `newDepIds`/`depIds` guard, so under the tracked
discipline — any sequence of evaluation rounds from a well-formed state —
a watcher appears at most once in any dep's subscriber list. -/
theorem c7_addSub_appends_tracked_unique (w : Nat) (d : DepObj) (s : TrackS)
    (rounds : List (List Nat)) (hwf : wfTrack w s) :
    (Dep.addSub w d).subs = d.subs ++ [w] ∧
    (∀ x, ((rounds.foldl (fun t r => evalRound w r t) s).subsOf x).count w ≤ 1) := by
  refine ⟨rfl, ?_⟩
  intro x
  have hw := wfTrack_foldRounds w rounds s hwf
  rcases hw with ⟨_, _, _, _, h5⟩
  rw [h5 x]
  by_cases hx : x ∈ (rounds.foldl (fun t r => evalRound w r t) s).deps
  · simp [hx]
  · simp [hx]

/-- Witness for C7 (amended): watcher `7` over two evaluation rounds
`[1, 2]` then `[2, 3]` from the empty state is subscribed at most once
everywhere. -/
theorem c7_addSub_appends_tracked_unique_witness :
    wfTrack 7 (TrackS.mk [] [] [] [] (fun _ => [])) ∧
    ((Dep.addSub 7 (DepObj.mk 0 [])).subs = (DepObj.mk 0 []).subs ++ [7] ∧
      (∀ x, (([[1, 2], [2, 3]].foldl (fun t r => evalRound 7 r t)
        (TrackS.mk [] [] [] [] (fun _ => []))).subsOf x).count 7 ≤ 1)) :=
  have hwf : wfTrack 7 (TrackS.mk [] [] [] [] (fun _ => [])) :=
    ⟨rfl, List.nodup_nil, rfl, rfl, fun d => by simp⟩
  ⟨hwf,
    c7_addSub_appends_tracked_unique 7 (DepObj.mk 0 [])
      (TrackS.mk [] [] [] [] (fun _ => [])) [[1, 2], [2, 3]] hwf⟩

/-- A re-entrant enqueue does not touch the `invoked` log. -/
theorem queueDuringFlush_invoked (i : Nat) (t : FState) :
    (queueDuringFlush i t).invoked = t.invoked := by
  unfold queueDuringFlush
  by_cases h : t.has i <;> simp [h]

/-- Applying a run's enqueue effects does not touch the `invoked` log. -/
theorem runEffects_invoked (ids : List Nat) :
    ∀ t, (runEffects ids t).invoked = t.invoked := by
  induction ids with
  | nil => intro t; rfl
  | cons i ids ih =>
    intro t
    show (runEffects ids (queueDuringFlush i t)).invoked = t.invoked
    rw [ih, queueDuringFlush_invoked]

/-- One flush step either leaves `invoked` unchanged or appends the watcher
it ran — and then that watcher was active. -/
theorem flushStep_invoked_cases (dev : Bool) (eff : Nat → List Nat)
    (active : Nat → Bool) (s : FState) :
    (flushStep dev eff active s).1.invoked = s.invoked ∨
    ∃ cur, active cur = true ∧
      (flushStep dev eff active s).1.invoked = s.invoked ++ [cur] := by
  by_cases hidx : s.index < s.queue.length
  · cases hact : active (s.queue.getD s.index 0) with
    | true =>
      right
      refine ⟨s.queue.getD s.index 0, hact, ?_⟩
      simp only [flushStep, hidx, if_true, hact]
      split
      · split <;> simp [runEffects_invoked]
      · simp [runEffects_invoked]
    | false =>
      left
      simp only [flushStep, hidx, if_true, hact, Bool.false_eq_true, if_false]
      split
      · split <;> simp
      · simp
  · left
    simp [flushStep, hidx]

/-- An inactive watcher is never added to `invoked` by the flush loop, no
matter how much of the queue it sits in. -/
theorem flushLoop_invoked_not_mem (dev : Bool) (eff : Nat → List Nat)
    (active : Nat → Bool) (x : Nat) (hx : active x = false) :
    ∀ (fuel : Nat) (s : FState), x ∉ s.invoked →
      x ∉ (flushLoop dev eff active fuel s).invoked := by
  intro fuel
  induction fuel with
  | zero => intro s h; exact h
  | succ fuel ih =>
    intro s h
    rw [flushLoop]
    by_cases hidx : s.index < s.queue.length
    · rw [if_pos hidx]
      have hmem : x ∉ (flushStep dev eff active s).1.invoked := by
        rcases flushStep_invoked_cases dev eff active s with hc | ⟨cur, hact, hc⟩
        · rw [hc]; exact h
        · rw [hc]
          intro hin
          rcases List.mem_append.mp hin with hin | hin
          · exact h hin
          · rw [List.mem_singleton] at hin
            rw [hin] at hx
            rw [hx] at hact
            exact Bool.false_ne_true hact
      by_cases hp : (flushStep dev eff active s).2
      · simp only [hp, if_true]
        exact ih _ hmem
      · simp only [hp, if_false]
        exact hmem
    · rw [if_neg hidx]
      exact h

/-- C8: `teardown` removes the watcher from every subscribed dep's list and
clears `active`, so no former dependency's `notify` snapshot contains it any
more; `run()` is a no-op on an inactive watcher; an inactive watcher already
sitting in an in-progress flush queue contributes no invocation when its
turn arrives; and `teardown` is idempotent. -/
theorem c8_teardown_final (w : Nat) (s : WLife) (mw : MWatcher)
    (res : Except Unit JSVal) (dev : Bool) (eff : Nat → List Nat)
    (active : Nat → Bool) (x fuel : Nat) (fs : FState) :
    (wfTrack w s.track → s.active = true →
      ((Watcher.teardown w s).active = false ∧
        ∀ d, w ∉ (Watcher.teardown w s).track.subsOf d)) ∧
    (mw.active = false → Watcher.run res mw = Except.ok mw) ∧
    (active x = false → x ∉ fs.invoked →
      x ∉ (flushLoop dev eff active fuel fs).invoked) ∧
    Watcher.teardown w (Watcher.teardown w s) = Watcher.teardown w s := by
  refine ⟨?_, ?_, ?_, ?_⟩
  · intro hwf hact
    rcases hwf with ⟨_, h2, _, _, h5⟩
    constructor
    · simp [Watcher.teardown, hact]
    · intro d
      have hcount :
          ((Watcher.teardown w s).track.subsOf d).count w = 0 := by
        have hrev : s.track.deps.reverse.Nodup := List.nodup_reverse.mpr h2
        have := removeStale_count w [] s.track.deps.reverse hrev s.track.subsOf d
        have hsub : (Watcher.teardown w s).track.subsOf =
            removeStale w [] s.track.deps.reverse s.track.subsOf := by
          simp [Watcher.teardown, hact]
        rw [hsub, this]
        by_cases hd : d ∈ s.track.deps
        · have hd' : d ∈ s.track.deps.reverse := List.mem_reverse.mpr hd
          rw [if_pos ⟨hd', by simp⟩, h5 d, if_pos hd]
        · have hd' : d ∉ s.track.deps.reverse := fun h =>
            hd (List.mem_reverse.mp h)
          rw [if_neg (fun h => hd' h.1), h5 d, if_neg hd]
      exact List.count_eq_zero.mp hcount
  · intro h
    simp [Watcher.run, h]
  · intro hx
    exact flushLoop_invoked_not_mem dev eff active x hx fuel fs
  · by_cases h : s.active <;> simp [Watcher.teardown, h]

/-- Witness for C8 at a concrete torn-down watcher: watcher `7` subscribed
to dep `1`, an inactive `MWatcher`, and an inactive id `7` inside a
mid-flush queue. -/
theorem c8_teardown_final_witness :
    wfTrack 7 (TrackS.mk [1] [1] [] [] (fun x => if x = 1 then [7] else [])) ∧
    (MWatcher.mk false false false false false false 0 JSVal.undef "e" 0 [] []).active = false ∧
    ((fun _ => false) : Nat → Bool) 7 = false ∧
    (7 : Nat) ∉ ([] : List Nat) ∧
    (((WLife.mk (TrackS.mk [1] [1] [] [] (fun x => if x = 1 then [7] else [])) true).active = true →
        True) ∧
      ((Watcher.teardown 7 (WLife.mk (TrackS.mk [1] [1] [] [] (fun x => if x = 1 then [7] else [])) true)).active = false ∧
        ∀ d, 7 ∉ (Watcher.teardown 7 (WLife.mk (TrackS.mk [1] [1] [] [] (fun x => if x = 1 then [7] else [])) true)).track.subsOf d) ∧
      Watcher.run (Except.ok JSVal.undef)
          (MWatcher.mk false false false false false false 0 JSVal.undef "e" 0 [] []) =
        Except.ok
          (MWatcher.mk false false false false false false 0 JSVal.undef "e" 0 [] []) ∧
      (7 ∉ (flushLoop false (fun _ => []) (fun _ => false) 3
        (FState.mk [5, 7] (fun _ => true) (fun _ => 0) 0 [] [] false)).invoked) ∧
      Watcher.teardown 7 (Watcher.teardown 7 (WLife.mk (TrackS.mk [1] [1] [] [] (fun x => if x = 1 then [7] else [])) true)) =
        Watcher.teardown 7 (WLife.mk (TrackS.mk [1] [1] [] [] (fun x => if x = 1 then [7] else [])) true)) :=
  have hwf : wfTrack 7 (TrackS.mk [1] [1] [] [] (fun x => if x = 1 then [7] else [])) :=
    ⟨rfl, by decide, rfl, rfl, fun d => by
      by_cases hd : d = 1
      · subst hd; simp
      · simp [hd]⟩
  have h := c8_teardown_final 7
    (WLife.mk (TrackS.mk [1] [1] [] [] (fun x => if x = 1 then [7] else [])) true)
    (MWatcher.mk false false false false false false 0 JSVal.undef "e" 0 [] [])
    (Except.ok JSVal.undef) false (fun _ => []) (fun _ => false) 7 3
    (FState.mk [5, 7] (fun _ => true) (fun _ => 0) 0 [] [] false)
  ⟨hwf, rfl, rfl, by decide,
    ⟨fun _ => trivial, h.1 hwf rfl, h.2.1 rfl, h.2.2.1 rfl (by decide), h.2.2.2⟩⟩

/-- Telescoping a drop at an in-range cursor. -/
theorem drop_eq_getD_cons :
    ∀ (l : List Nat) (n : Nat), n < l.length →
      l.drop n = l.getD n 0 :: l.drop (n + 1) := by
  intro l
  induction l with
  | nil => intro n h; simp at h
  | cons a l ih =>
    intro n h
    cases n with
    | zero => simp
    | succ n =>
      rw [List.drop_succ_cons, List.getD_cons_succ, List.drop_succ_cons,
        ih n (by simpa using h)]

/-- Through any number of `queueWatcher` calls in the idle phase, the queue
holds a watcher exactly once when its `has` flag is set and not at all
otherwise, and `has` accumulates exactly the enqueued ids. -/
theorem queueWatcher_foldl_inv (writes : List Nat) :
    ∀ (s : Sched), (∀ x, s.queue.count x = if s.has x then 1 else 0) →
      (∀ x, (writes.foldl (fun t i => queueWatcher i t) s).queue.count x =
        if (writes.foldl (fun t i => queueWatcher i t) s).has x then 1 else 0) ∧
      (∀ x, (writes.foldl (fun t i => queueWatcher i t) s).has x =
        (s.has x || decide (x ∈ writes))) := by
  induction writes with
  | nil =>
    intro s h
    exact ⟨h, fun x => by simp⟩
  | cons i writes ih =>
    intro s h
    have hstep : ∀ x, (queueWatcher i s).queue.count x =
        if (queueWatcher i s).has x then 1 else 0 := by
      intro x
      by_cases hi : s.has i
      · simp only [queueWatcher, hi, if_true]
        exact h x
      · simp only [queueWatcher, hi, if_false]
        show (s.queue ++ [i]).count x = if (if x = i then true else s.has x) then 1 else 0
        rw [List.count_append]
        by_cases hx : x = i
        · subst hx
          have := h x
          rw [if_neg (by simp [hi])] at this
          simp [this]
        · simp only [hx, if_false]
          rw [h x]
          simp [List.count_singleton, hx]
    have hhas : ∀ x, (queueWatcher i s).has x = (s.has x || decide (x = i)) := by
      intro x
      by_cases hi : s.has i
      · simp only [queueWatcher, hi, if_true]
        by_cases hx : x = i
        · subst hx; simp [hi]
        · simp [hx]
      · simp only [queueWatcher, hi, if_false]
        show (if x = i then true else s.has x) = (s.has x || decide (x = i))
        by_cases hx : x = i
        · subst hx; simp
        · simp [hx]
    have := ih (queueWatcher i s) hstep
    refine ⟨this.1, fun x => ?_⟩
    rw [List.foldl_cons]
    rw [this.2 x, hhas x]
    by_cases hx : x = i
    · subst hx; simp
    · simp [hx, List.mem_cons]

/-- With no re-entrant enqueues (`eff` empty), a fuelled flush loop drains
the rest of the queue in place: the queue is untouched, the cursor ends at
the queue length, every remaining element is processed in queue order, and
exactly the active ones are invoked; no circular diagnostic fires. -/
theorem flushLoop_noEff (dev : Bool) (active : Nat → Bool) :
    ∀ (fuel : Nat) (s : FState), s.queue.length ≤ s.index + fuel →
      (flushLoop dev (fun _ => []) active fuel s).queue = s.queue ∧
      (flushLoop dev (fun _ => []) active fuel s).index =
        max s.index s.queue.length ∧
      (flushLoop dev (fun _ => []) active fuel s).processed =
        s.processed ++ s.queue.drop s.index ∧
      (flushLoop dev (fun _ => []) active fuel s).invoked =
        s.invoked ++ (s.queue.drop s.index).filter (fun i => active i) ∧
      (flushLoop dev (fun _ => []) active fuel s).warned = s.warned := by
  intro fuel
  induction fuel with
  | zero =>
    intro s hfuel
    have hle : s.queue.length ≤ s.index := by simpa using hfuel
    have hdrop : s.queue.drop s.index = [] := List.drop_eq_nil_of_le hle
    rw [flushLoop]
    refine ⟨rfl, ?_, ?_, ?_, rfl⟩
    · exact (Nat.max_eq_left hle).symm
    · rw [hdrop, List.append_nil]
    · rw [hdrop]; simp
  | succ fuel ih =>
    intro s hfuel
    by_cases hidx : s.index < s.queue.length
    · have hcur : s.queue.drop s.index =
          s.queue.getD s.index 0 :: s.queue.drop (s.index + 1) :=
        drop_eq_getD_cons s.queue s.index hidx
      have hstep : flushStep dev (fun _ => []) active s =
          ({ s with
              has := fun x => if x = s.queue.getD s.index 0 then false else s.has x
              processed := s.processed ++ [s.queue.getD s.index 0]
              invoked :=
                if active (s.queue.getD s.index 0) then
                  s.invoked ++ [s.queue.getD s.index 0]
                else s.invoked
              index := s.index + 1 }, true) := by
        cases hact : active (s.queue.getD s.index 0) with
        | true =>
          simp only [flushStep, hidx, if_true, hact, runEffects, List.foldl_nil]
          simp
        | false =>
          simp only [flushStep, hidx, if_true, hact, Bool.false_eq_true, if_false]
          simp
      rw [flushLoop, if_pos hidx, hstep]
      simp only [if_true]
      set s1 : FState :=
        { s with
            has := fun x => if x = s.queue.getD s.index 0 then false else s.has x
            processed := s.processed ++ [s.queue.getD s.index 0]
            invoked :=
              if active (s.queue.getD s.index 0) then
                s.invoked ++ [s.queue.getD s.index 0]
              else s.invoked
            index := s.index + 1 } with hs1
      have hfuel1 : s1.queue.length ≤ s1.index + fuel := by
        show s.queue.length ≤ s.index + 1 + fuel
        omega
      have h1 := ih s1 hfuel1
      rcases h1 with ⟨g1, g2, g3, g4, g5⟩
      have hq : s1.queue = s.queue := rfl
      refine ⟨by rw [g1, hq], ?_, ?_, ?_, by rw [g5]⟩
      · rw [g2, hq]
        show max (s.index + 1) s.queue.length = max s.index s.queue.length
        omega
      · rw [g3, hq, hcur]
        show (s.processed ++ [s.queue.getD s.index 0]) ++ s.queue.drop (s.index + 1) =
          s.processed ++ (s.queue.getD s.index 0 :: s.queue.drop (s.index + 1))
        simp
      · rw [g4, hq, hcur]
        cases hact : active (s.queue.getD s.index 0) with
        | true =>
          rw [List.filter_cons_of_pos hact]
          show (if active (s.queue.getD s.index 0) then
              s.invoked ++ [s.queue.getD s.index 0] else s.invoked) ++
              (s.queue.drop (s.index + 1)).filter (fun i => active i) =
            s.invoked ++
              (s.queue.getD s.index 0 ::
                (s.queue.drop (s.index + 1)).filter (fun i => active i))
          rw [if_pos hact]
          simp
        | false =>
          rw [List.filter_cons_of_neg (by simpa using hact)]
          show (if active (s.queue.getD s.index 0) then
              s.invoked ++ [s.queue.getD s.index 0] else s.invoked) ++
              (s.queue.drop (s.index + 1)).filter (fun i => active i) =
            s.invoked ++ (s.queue.drop (s.index + 1)).filter (fun i => active i)
          rw [if_neg (by simpa using hact)]
    · have hle : s.queue.length ≤ s.index := Nat.le_of_not_lt hidx
      have hdrop : s.queue.drop s.index = [] := List.drop_eq_nil_of_le hle
      rw [flushLoop, if_neg hidx]
      refine ⟨rfl, (Nat.max_eq_left hle).symm, ?_, ?_, rfl⟩
      · rw [hdrop, List.append_nil]
      · rw [hdrop]; simp

/-- C2: within one synchronous burst (a fold of `queueWatcher` calls from
the reset scheduler), a watcher notified any number of times is enqueued at
most once — exactly once when it was notified at all — and in the following
flush (with no re-entrant enqueues) its `run()` is invoked exactly once. -/
theorem c2_burst_dedup_single_run (writes : List Nat) (w : Nat) (dev : Bool)
    (active : Nat → Bool) (fuel : Nat) (hw : w ∈ writes)
    (hact : active w = true)
    (hfuel :
      (initFlush (writes.foldl (fun t i => queueWatcher i t) emptySched)).queue.length ≤ fuel) :
    (writes.foldl (fun t i => queueWatcher i t) emptySched).queue.count w = 1 ∧
    (∀ x, (writes.foldl (fun t i => queueWatcher i t) emptySched).queue.count x ≤ 1) ∧
    (flushLoop dev (fun _ => []) active fuel
      (initFlush (writes.foldl (fun t i => queueWatcher i t) emptySched))).invoked.count w = 1 := by
  have hbase : ∀ x, (emptySched.queue.count x) = if emptySched.has x then 1 else 0 := by
    intro x; simp [emptySched]
  have hinv := queueWatcher_foldl_inv writes emptySched hbase
  set S := writes.foldl (fun t i => queueWatcher i t) emptySched with hS
  have hcount : ∀ x, S.queue.count x = if x ∈ writes then 1 else 0 := by
    intro x
    rw [hinv.1 x, hinv.2 x]
    show (if ((emptySched.has x || decide (x ∈ writes)) : Bool) then 1 else 0) =
      if x ∈ writes then 1 else 0
    by_cases hx : x ∈ writes <;> simp [emptySched, hx]
  have hc1 : S.queue.count w = 1 := by rw [hcount w, if_pos hw]
  have hle : ∀ x, S.queue.count x ≤ 1 := by
    intro x
    rw [hcount x]
    by_cases hx : x ∈ writes <;> simp [hx]
  have hflen : (initFlush S).queue.length ≤ (initFlush S).index + fuel := by
    simpa [initFlush] using hfuel
  have hno := flushLoop_noEff dev active fuel (initFlush S) hflen
  refine ⟨hc1, hle, ?_⟩
  rw [hno.2.2.2.1]
  have hi0 : (initFlush S).invoked = [] := rfl
  have hd0 : (initFlush S).queue.drop (initFlush S).index = (initFlush S).queue := by
    show (initFlush S).queue.drop 0 = (initFlush S).queue
    exact List.drop_zero _
  rw [hi0, hd0, List.nil_append]
  have hPa : (fun i => active i) w = true := hact
  rw [List.count_filter hPa]
  have hperm : List.Perm (initFlush S).queue S.queue := List.perm_insertionSort _ _
  rw [hperm.count_eq w, hc1]

/-- Witness for C2: the burst `[4, 4, 9]` enqueues watcher `4` once, and
the flush runs it exactly once. -/
theorem c2_burst_dedup_single_run_witness :
    (4 ∈ [4, 4, 9] ∧ ((fun _ => true) : Nat → Bool) 4 = true ∧
      (initFlush ([4, 4, 9].foldl (fun t i => queueWatcher i t) emptySched)).queue.length ≤ 5) ∧
    (([4, 4, 9].foldl (fun t i => queueWatcher i t) emptySched).queue.count 4 = 1 ∧
      (∀ x, ([4, 4, 9].foldl (fun t i => queueWatcher i t) emptySched).queue.count x ≤ 1) ∧
      (flushLoop false (fun _ => []) (fun _ => true) 5
        (initFlush ([4, 4, 9].foldl (fun t i => queueWatcher i t) emptySched))).invoked.count 4 = 1) :=
  ⟨⟨by decide, rfl, by decide⟩,
    c2_burst_dedup_single_run [4, 4, 9] 4 false (fun _ => true) 5
      (by decide) rfl (by decide)⟩

/-- `insAt` inserts exactly one element. -/
theorem length_insAt : ∀ (p x : Nat) (l : List Nat),
    (insAt p x l).length = l.length + 1 := by
  intro p
  induction p with
  | zero => intro x l; rfl
  | succ p ih =>
    intro x l
    cases l with
    | nil => rfl
    | cons a l => simp [insAt, ih]

/-- Membership through `insAt`. -/
theorem mem_insAt : ∀ (p x : Nat) (l : List Nat) (y : Nat),
    y ∈ insAt p x l ↔ y = x ∨ y ∈ l := by
  intro p
  induction p with
  | zero => intro x l y; simp [insAt]
  | succ p ih =>
    intro x l y
    cases l with
    | nil => simp [insAt]
    | cons a l =>
      simp only [insAt, List.mem_cons, ih]
      tauto

/-- A prefix strictly before the insertion point is unchanged. -/
theorem take_insAt : ∀ (n p x : Nat) (l : List Nat), n ≤ p → n ≤ l.length →
    (insAt p x l).take n = l.take n := by
  intro n
  induction n with
  | zero => intro p x l _ _; simp
  | succ n ih =>
    intro p x l hnp hnl
    cases p with
    | zero => exact absurd hnp (by omega)
    | succ p =>
      cases l with
      | nil => simp at hnl
      | cons a l =>
        show (a :: insAt p x l).take (n + 1) = (a :: l).take (n + 1)
        rw [List.take_succ_cons, List.take_succ_cons,
          ih p x l (by omega) (by simpa using hnl)]

/-- Dropping to an in-range point before the insertion point commutes with
`insAt`. -/
theorem drop_insAt : ∀ (n p x : Nat) (l : List Nat), n ≤ p → n ≤ l.length →
    (insAt p x l).drop n = insAt (p - n) x (l.drop n) := by
  intro n
  induction n with
  | zero => intro p x l _ _; simp
  | succ n ih =>
    intro p x l hnp hnl
    cases p with
    | zero => exact absurd hnp (by omega)
    | succ p =>
      cases l with
      | nil => simp at hnl
      | cons a l =>
        show (a :: insAt p x l).drop (n + 1) = insAt (p + 1 - (n + 1)) x ((a :: l).drop (n + 1))
        rw [List.drop_succ_cons, List.drop_succ_cons,
          ih p x l (by omega) (by simpa using hnl)]
        congr 1
        omega

/-- The backward scan never goes above its starting point. -/
theorem scanBack_le : ∀ (q : List Nat) (index id i : Nat),
    scanBack q index id i ≤ i := by
  intro q index id i
  induction i with
  | zero => simp [scanBack]
  | succ i ih =>
    rw [scanBack]
    split
    · omega
    · omega

/-- The backward scan never crosses the cursor. -/
theorem scanBack_ge : ∀ (q : List Nat) (index id i : Nat), index ≤ i →
    index ≤ scanBack q index id i := by
  intro q index id i
  induction i with
  | zero => intro h; simpa [scanBack] using h
  | succ i ih =>
    intro h
    rw [scanBack]
    split
    · next hc => exact ih (by omega)
    · omega

/-- Every position strictly after the scan's stop point (up to the scan's
start) holds an id greater than the inserted one. -/
theorem scanBack_gt_after : ∀ (q : List Nat) (index id i : Nat) (j : Nat),
    scanBack q index id i < j → j ≤ i → id < q.getD j 0 := by
  intro q index id i
  induction i with
  | zero => intro j h1 h2; omega
  | succ i ih =>
    intro j h1 h2
    rw [scanBack] at h1
    by_cases hc : index < i + 1 ∧ id < q.getD (i + 1) 0
    · rw [if_pos hc] at h1
      by_cases hj : j = i + 1
      · subst hj; exact hc.2
      · exact ih j h1 (by omega)
    · rw [if_neg hc] at h1
      omega

/-- The scan stops either right at the cursor or at a position whose id does
not exceed the inserted one. -/
theorem scanBack_stop : ∀ (q : List Nat) (index id i : Nat), index ≤ i →
    scanBack q index id i = index ∨
      q.getD (scanBack q index id i) 0 ≤ id := by
  intro q index id i
  induction i with
  | zero =>
    intro h
    left
    simp [scanBack]
    omega
  | succ i ih =>
    intro h
    rw [scanBack]
    by_cases hc : index < i + 1 ∧ id < q.getD (i + 1) 0
    · rw [if_pos hc]
      exact ih (by omega)
    · rw [if_neg hc]
      by_cases hi : index = i + 1
      · left; omega
      · right
        have : ¬id < q.getD (i + 1) 0 := by
          intro hlt
          exact hc ⟨by omega, hlt⟩
        omega

/-- Inserting `id` at position `m` of a strictly sorted list keeps it
strictly sorted when everything before `m` is smaller and everything from
`m` on is larger. -/
theorem insAt_sorted_mid : ∀ (m : Nat) (t : List Nat) (id : Nat),
    List.Sorted (· < ·) t →
    (∀ y ∈ t.take m, y < id) →
    (∀ y ∈ t.drop m, id < y) →
    List.Sorted (· < ·) (insAt m id t) := by
  intro m
  induction m with
  | zero =>
    intro t id hs _ hdrop
    exact List.sorted_cons.mpr ⟨fun b hb => hdrop b (by simpa using hb), hs⟩
  | succ m ih =>
    intro t id hs htake hdrop
    cases t with
    | nil => exact List.sorted_singleton id
    | cons a t =>
      show List.Sorted (· < ·) (a :: insAt m id t)
      have hs' := List.sorted_cons.mp hs
      refine List.sorted_cons.mpr ⟨?_, ih t id hs'.2 ?_ ?_⟩
      · intro b hb
        rcases (mem_insAt m id t b).mp hb with hb | hb
        · subst hb
          exact htake a (by simp)
        · exact hs'.1 b hb
      · intro y hy
        refine htake y ?_
        rw [List.take_succ_cons]
        exact List.mem_cons_of_mem a hy
      · intro y hy
        exact hdrop y (by simpa [List.drop_succ_cons] using hy)

/-- Core correctness of the mid-flush insertion: for a cursor inside the
queue, a strictly sorted not-yet-run suffix, and a new id not in that
suffix, the backward-scan splice lands strictly after the cursor, leaves
the prefix through the cursor untouched, and the new suffix is the old one
with `id` inserted, still strictly sorted. -/
theorem insert_into_suffix (q : List Nat) (idx id : Nat)
    (hidx : idx < q.length)
    (hsort : List.Sorted (· < ·) (q.drop (idx + 1)))
    (hnot : id ∉ q.drop (idx + 1)) :
    idx + 1 ≤ scanBack q idx id (q.length - 1) + 1 ∧
    (insAt (scanBack q idx id (q.length - 1) + 1) id q).take (idx + 1) =
      q.take (idx + 1) ∧
    List.Sorted (· < ·)
      ((insAt (scanBack q idx id (q.length - 1) + 1) id q).drop (idx + 1)) ∧
    (∀ y, y ∈ (insAt (scanBack q idx id (q.length - 1) + 1) id q).drop (idx + 1) ↔
      y = id ∨ y ∈ q.drop (idx + 1)) := by
  have hstart : idx ≤ q.length - 1 := by omega
  have hrge : idx ≤ scanBack q idx id (q.length - 1) :=
    scanBack_ge q idx id _ hstart
  have hrle : scanBack q idx id (q.length - 1) ≤ q.length - 1 :=
    scanBack_le q idx id _
  set r := scanBack q idx id (q.length - 1) with hr
  have hp1 : idx + 1 ≤ r + 1 := by omega
  have hlen : idx + 1 ≤ q.length := hidx
  have hmm : r + 1 - (idx + 1) = r - idx := by omega
  have htlen : (q.drop (idx + 1)).length = q.length - (idx + 1) := by simp
  have hmle : r - idx ≤ (q.drop (idx + 1)).length := by omega
  refine ⟨hp1, take_insAt (idx + 1) (r + 1) id q hp1 hlen, ?_, ?_⟩
  · rw [drop_insAt (idx + 1) (r + 1) id q hp1 hlen, hmm]
    apply insAt_sorted_mid (r - idx) (q.drop (idx + 1)) id hsort
    · intro y hy
      by_cases hreq : r = idx
      · rw [hreq] at hy
        simp at hy
      · -- r > idx: everything in the take is at most q[r], which is ≤ id
        have hrgt : idx < r := by omega
        have hqr : q.getD r 0 ≤ id := by
          rcases scanBack_stop q idx id (q.length - 1) hstart with h | h
        -- the stop-at-cursor case contradicts idx < r
          · rw [← hr] at h; omega
          · rw [← hr] at h; exact h
        rcases List.mem_iff_getElem.mp hy with ⟨k, hk, hky⟩
        have hk' : k < r - idx := by
          have := hk
          simp at this
          omega
        have hkt : k < (q.drop (idx + 1)).length := by
          simp
          omega
        have hyk : y = (q.drop (idx + 1))[k] := by
          rw [← hky, List.getElem_take]
        have hm1 : r - idx - 1 < (q.drop (idx + 1)).length := by omega
        have hqr' : (q.drop (idx + 1))[r - idx - 1] = q.getD r 0 := by
          rw [List.getElem_drop]
          rw [List.getD_eq_getElem q 0 (by omega : r < q.length)]
          congr 1
          omega
        have hle2 : y ≤ q.getD r 0 := by
          by_cases hkeq : k = r - idx - 1
          · subst hkeq
            rw [hyk, hqr']
          · have hklt : k < r - idx - 1 := by omega
            have hpair := List.pairwise_iff_get.mp hsort
              ⟨k, hkt⟩ ⟨r - idx - 1, hm1⟩ (by simpa using hklt)
            have : (q.drop (idx + 1))[k] < (q.drop (idx + 1))[r - idx - 1] := by
              simpa [List.get_eq_getElem] using hpair
            rw [hyk]
            omega
        have hymem : y ∈ q.drop (idx + 1) := by
          rw [hyk]
          exact List.getElem_mem _
        have hyne : y ≠ id := fun h => hnot (h ▸ hymem)
        omega
    · intro y hy
      rw [List.drop_drop] at hy
      rcases List.mem_iff_getElem.mp hy with ⟨k, hk, hky⟩
      have hklen : idx + 1 + (r - idx) + k < q.length := by
        have := hk
        simp at this
        omega
      have hyk : y = q.getD (idx + 1 + (r - idx) + k) 0 := by
        rw [← hky, List.getElem_drop, List.getD_eq_getElem q 0 hklen]
      have hgt : id < q.getD (idx + 1 + (r - idx) + k) 0 := by
        apply scanBack_gt_after q idx id (q.length - 1) _ (by omega) (by omega)
      rw [hyk]
      exact hgt
  · intro y
    rw [drop_insAt (idx + 1) (r + 1) id q hp1 hlen, hmm]
    exact mem_insAt (r - idx) id (q.drop (idx + 1)) y

/-- Restricting equal takes. -/
theorem take_eq_mono (l1 l2 : List Nat) (m n : Nat)
    (h : l1.take m = l2.take m) (hn : n ≤ m) : l1.take n = l2.take n := by
  have h1 : l1.take n = (l1.take m).take n := by
    rw [List.take_take, Nat.min_eq_left hn]
  have h2 : l2.take n = (l2.take m).take n := by
    rw [List.take_take, Nat.min_eq_left hn]
  rw [h1, h2, h]

/-- Equal takes give equal reads strictly below the cut. -/
theorem getD_eq_of_take_eq (l1 l2 : List Nat) (n : Nat)
    (h : l1.take (n + 1) = l2.take (n + 1)) (h1 : n < l1.length)
    (h2 : n < l2.length) : l1.getD n 0 = l2.getD n 0 := by
  have k1 : (l1.take (n + 1)).getD n 0 = l1.getD n 0 := by
    rw [List.getD_eq_getElem _ 0 (by simp; omega), List.getD_eq_getElem l1 0 h1]
    rw [List.getElem_take]
  have k2 : (l2.take (n + 1)).getD n 0 = l2.getD n 0 := by
    rw [List.getD_eq_getElem _ 0 (by simp; omega), List.getD_eq_getElem l2 0 h2]
    rw [List.getElem_take]
  rw [← k1, ← k2, h]

/-- A mid-flush enqueue never moves the cursor, never shrinks the queue,
never changes the prefix through the cursor, and only extends the
not-yet-run part. -/
theorem queueDuringFlush_props (i : Nat) (t : FState)
    (hidx : t.index < t.queue.length) :
    (queueDuringFlush i t).index = t.index ∧
    t.queue.length ≤ (queueDuringFlush i t).queue.length ∧
    (queueDuringFlush i t).queue.take (t.index + 1) = t.queue.take (t.index + 1) ∧
    (queueDuringFlush i t).processed = t.processed ∧
    (∀ n a, n ≤ t.index + 1 → a ∈ t.queue.drop n →
      a ∈ (queueDuringFlush i t).queue.drop n) := by
  by_cases h : t.has i
  · simp [queueDuringFlush, h]
  · have hge : t.index ≤ scanBack t.queue t.index i (t.queue.length - 1) :=
      scanBack_ge t.queue t.index i _ (by omega)
    have hq : (queueDuringFlush i t).queue =
        insAt (scanBack t.queue t.index i (t.queue.length - 1) + 1) i t.queue := by
      simp [queueDuringFlush, h]
    refine ⟨by simp [queueDuringFlush, h], ?_, ?_, by simp [queueDuringFlush, h], ?_⟩
    · rw [hq, length_insAt]
      omega
    · rw [hq]
      exact take_insAt (t.index + 1) _ i t.queue (by omega) (by omega)
    · intro n a hn ha
      rw [hq, drop_insAt n _ i t.queue (by omega) (by omega)]
      rw [mem_insAt]
      exact Or.inr ha

/-- `runEffects` enjoys the same stability properties. -/
theorem runEffects_props (ids : List Nat) :
    ∀ (t : FState), t.index < t.queue.length →
      (runEffects ids t).index = t.index ∧
      t.queue.length ≤ (runEffects ids t).queue.length ∧
      (runEffects ids t).queue.take (t.index + 1) = t.queue.take (t.index + 1) ∧
      (runEffects ids t).processed = t.processed ∧
      (∀ n a, n ≤ t.index + 1 → a ∈ t.queue.drop n →
        a ∈ (runEffects ids t).queue.drop n) := by
  induction ids with
  | nil =>
    intro t _
    exact ⟨rfl, le_refl _, rfl, rfl, fun n a _ ha => ha⟩
  | cons i ids ih =>
    intro t hidx
    have h0 := queueDuringFlush_props i t hidx
    have hidx1 : (queueDuringFlush i t).index < (queueDuringFlush i t).queue.length := by
      rw [h0.1]
      omega
    have h1 := ih (queueDuringFlush i t) hidx1
    have hchain : runEffects (i :: ids) t = runEffects ids (queueDuringFlush i t) := rfl
    rw [hchain]
    refine ⟨?_, ?_, ?_, ?_, ?_⟩
    · rw [h1.1, h0.1]
    · calc t.queue.length ≤ (queueDuringFlush i t).queue.length := h0.2.1
        _ ≤ _ := by
          have := h1.2.1
          exact this
    · have e1 : (runEffects ids (queueDuringFlush i t)).queue.take
          ((queueDuringFlush i t).index + 1) =
          (queueDuringFlush i t).queue.take ((queueDuringFlush i t).index + 1) :=
        h1.2.2.1
      rw [h0.1] at e1
      rw [e1, h0.2.2.1]
    · rw [h1.2.2.2.1, h0.2.2.2.1]
    · intro n a hn ha
      have hmem1 := h0.2.2.2.2 n a hn ha
      have hn1 : n ≤ (queueDuringFlush i t).index + 1 := by
        rw [h0.1]
        exact hn
      exact h1.2.2.2.2 n a hn1 hmem1


/-- Reduction of a production-mode (`dev = false`) flush step at an
in-range cursor: the circular-update guard is skipped and the loop always
continues. -/
theorem flushStep_false_eq (eff : Nat → List Nat) (active : Nat → Bool)
    (s : FState) (hidx : s.index < s.queue.length) :
    flushStep false eff active s =
      (let cur := s.queue.getD s.index 0
       let s1 : FState :=
         { s with
             has := fun x => if x = cur then false else s.has x
             processed := s.processed ++ [cur] }
       let s2 := if active cur then
           runEffects (eff cur) { s1 with invoked := s1.invoked ++ [cur] }
         else s1
       ({ s2 with index := s2.index + 1 }, true)) := by
  simp only [flushStep, hidx, if_true, Bool.false_and, Bool.false_eq_true,
    if_false]


/-- Closed form of a production-mode step on an active watcher. -/
theorem flushStep_false_run (eff : Nat → List Nat) (active : Nat → Bool)
    (s : FState) (hidx : s.index < s.queue.length)
    (hact : active (s.queue.getD s.index 0) = true) :
    flushStep false eff active s =
      ({ runEffects (eff (s.queue.getD s.index 0))
          { s with
              has := fun x => if x = s.queue.getD s.index 0 then false else s.has x
              processed := s.processed ++ [s.queue.getD s.index 0]
              invoked := s.invoked ++ [s.queue.getD s.index 0] } with
          index :=
            (runEffects (eff (s.queue.getD s.index 0))
              { s with
                  has := fun x => if x = s.queue.getD s.index 0 then false else s.has x
                  processed := s.processed ++ [s.queue.getD s.index 0]
                  invoked := s.invoked ++ [s.queue.getD s.index 0] }).index + 1 },
        true) := by
  rw [flushStep_false_eq eff active s hidx]
  simp only [hact, if_true]

/-- Closed form of a production-mode step on an inactive watcher. -/
theorem flushStep_false_skip (eff : Nat → List Nat) (active : Nat → Bool)
    (s : FState) (hidx : s.index < s.queue.length)
    (hact : active (s.queue.getD s.index 0) = false) :
    flushStep false eff active s =
      ({ s with
          has := fun x => if x = s.queue.getD s.index 0 then false else s.has x
          processed := s.processed ++ [s.queue.getD s.index 0]
          index := s.index + 1 }, true) := by
  rw [flushStep_false_eq eff active s hidx]
  simp only [hact, Bool.false_eq_true, if_false]

/-- One production-mode flush step: always continues, advances the cursor
by one, appends exactly the current watcher to `processed`, and keeps the
prefix through the old cursor (and every pending member) intact. -/
theorem flushStep_noBreak (eff : Nat → List Nat) (active : Nat → Bool)
    (s : FState) (hidx : s.index < s.queue.length) :
    (flushStep false eff active s).2 = true ∧
    (flushStep false eff active s).1.index = s.index + 1 ∧
    s.queue.length ≤ (flushStep false eff active s).1.queue.length ∧
    (flushStep false eff active s).1.queue.take (s.index + 1) =
      s.queue.take (s.index + 1) ∧
    (flushStep false eff active s).1.processed =
      s.processed ++ [s.queue.getD s.index 0] ∧
    (∀ n a, n ≤ s.index + 1 → a ∈ s.queue.drop n →
      a ∈ (flushStep false eff active s).1.queue.drop n) := by
  cases hact : active (s.queue.getD s.index 0) with
  | true =>
    rw [flushStep_false_run eff active s hidx hact]
    have hp := runEffects_props (eff (s.queue.getD s.index 0))
      ({ s with
          has := fun x => if x = s.queue.getD s.index 0 then false else s.has x
          processed := s.processed ++ [s.queue.getD s.index 0]
          invoked := s.invoked ++ [s.queue.getD s.index 0] } : FState) hidx
    refine ⟨rfl, ?_, hp.2.1, hp.2.2.1, hp.2.2.2.1, fun n a hn ha => hp.2.2.2.2 n a hn ha⟩
    show (runEffects _ _).index + 1 = s.index + 1
    rw [hp.1]
  | false =>
    rw [flushStep_false_skip eff active s hidx hact]
    exact ⟨rfl, rfl, le_refl _, rfl, rfl, fun n a _ ha => ha⟩

/-- Production-mode flush-loop stability: the cursor and queue only grow,
the prefix up to the starting cursor never changes, and pending members
stay pending or get run (they are never removed from the queue). -/
theorem flushLoop_mono (eff : Nat → List Nat) (active : Nat → Bool) :
    ∀ (fuel : Nat) (s : FState),
      s.index ≤ (flushLoop false eff active fuel s).index ∧
      s.queue.length ≤ (flushLoop false eff active fuel s).queue.length ∧
      (∀ n, n ≤ s.index →
        (flushLoop false eff active fuel s).queue.take n = s.queue.take n) ∧
      (∀ n a, n ≤ s.index → a ∈ s.queue.drop n →
        a ∈ (flushLoop false eff active fuel s).queue.drop n) := by
  intro fuel
  induction fuel with
  | zero =>
    intro s
    exact ⟨le_refl _, le_refl _, fun n _ => rfl, fun n a _ ha => ha⟩
  | succ fuel ih =>
    intro s
    rw [flushLoop]
    by_cases hidx : s.index < s.queue.length
    · rw [if_pos hidx]
      have hstep := flushStep_noBreak eff active s hidx
      simp only [hstep.1, if_true]
      have ihs := ih (flushStep false eff active s).1
      refine ⟨?_, ?_, ?_, ?_⟩
      · calc s.index ≤ s.index + 1 := by omega
          _ = (flushStep false eff active s).1.index := hstep.2.1.symm
          _ ≤ _ := ihs.1
      · calc s.queue.length ≤ (flushStep false eff active s).1.queue.length :=
            hstep.2.2.1
          _ ≤ _ := ihs.2.1
      · intro n hn
        have h1 : (flushLoop false eff active fuel (flushStep false eff active s).1).queue.take n =
            (flushStep false eff active s).1.queue.take n :=
          ihs.2.2.1 n (by rw [hstep.2.1]; omega)
        have h2 : (flushStep false eff active s).1.queue.take n = s.queue.take n :=
          take_eq_mono _ _ (s.index + 1) n hstep.2.2.2.1 (by omega)
        rw [h1, h2]
      · intro n a hn ha
        have h1 : a ∈ (flushStep false eff active s).1.queue.drop n :=
          hstep.2.2.2.2.2 n a (by omega) ha
        exact ihs.2.2.2 n a (by rw [hstep.2.1]; omega) h1
    · rw [if_neg hidx]
      exact ⟨le_refl _, le_refl _, fun n _ => rfl, fun n a _ ha => ha⟩

/-- When a production-mode flush loop drains completely (final cursor at
the final queue length), the processed log extends by exactly the final
queue from the starting cursor on: every element that was pending, or was
inserted re-entrantly behind the cursor, has been run, in queue order. -/
theorem flushLoop_processed_eq (eff : Nat → List Nat) (active : Nat → Bool) :
    ∀ (fuel : Nat) (s : FState),
      (flushLoop false eff active fuel s).index =
        (flushLoop false eff active fuel s).queue.length →
      (flushLoop false eff active fuel s).processed =
        s.processed ++ (flushLoop false eff active fuel s).queue.drop s.index := by
  intro fuel
  induction fuel with
  | zero =>
    intro s hdone
    rw [flushLoop] at hdone ⊢
    have : s.queue.drop s.index = [] :=
      List.drop_eq_nil_of_le (by omega)
    rw [this, List.append_nil]
  | succ fuel ih =>
    intro s hdone
    rw [flushLoop] at hdone ⊢
    by_cases hidx : s.index < s.queue.length
    · rw [if_pos hidx] at hdone ⊢
      have hstep := flushStep_noBreak eff active s hidx
      simp only [hstep.1, if_true] at hdone ⊢
      have ihs := ih (flushStep false eff active s).1 hdone
      rw [ihs, hstep.2.2.2.2.1]
      have hmono := flushLoop_mono eff active fuel (flushStep false eff active s).1
      have hlen : s.index <
          (flushLoop false eff active fuel (flushStep false eff active s).1).queue.length := by
        have h1 : s.queue.length ≤ (flushStep false eff active s).1.queue.length :=
          hstep.2.2.1
        have h2 := hmono.2.1
        omega
      have htake : (flushLoop false eff active fuel (flushStep false eff active s).1).queue.take (s.index + 1) =
          s.queue.take (s.index + 1) := by
        have h1 := hmono.2.2.1 (s.index + 1) (by rw [hstep.2.1])
        rw [h1, hstep.2.2.2.1]
      have hget : (flushLoop false eff active fuel (flushStep false eff active s).1).queue.getD s.index 0 =
          s.queue.getD s.index 0 :=
        getD_eq_of_take_eq _ _ s.index htake hlen hidx
      have hdrop : (flushLoop false eff active fuel (flushStep false eff active s).1).queue.drop s.index =
          s.queue.getD s.index 0 ::
            (flushLoop false eff active fuel (flushStep false eff active s).1).queue.drop (s.index + 1) := by
        rw [drop_eq_getD_cons _ s.index hlen, hget]
      rw [hdrop, hstep.2.1]
      simp
    · rw [if_neg hidx] at hdone ⊢
      have : s.queue.drop s.index = [] :=
        List.drop_eq_nil_of_le (by omega)
      rw [this, List.append_nil]

/-- Every watcher pending at or behind the cursor when the loop resumes is
processed within this flush, provided the flush drains. -/
theorem flushLoop_runs_pending (eff : Nat → List Nat) (active : Nat → Bool)
    (fuel : Nat) (s : FState) (id : Nat)
    (hmem : id ∈ s.queue.drop s.index)
    (hdone : (flushLoop false eff active fuel s).index =
      (flushLoop false eff active fuel s).queue.length) :
    id ∈ (flushLoop false eff active fuel s).processed := by
  rw [flushLoop_processed_eq eff active fuel s hdone]
  have hmono := flushLoop_mono eff active fuel s
  have h1 : id ∈ (flushLoop false eff active fuel s).queue.drop s.index :=
    hmono.2.2.2 s.index id (le_refl _) hmem
  exact List.mem_append.mpr (Or.inr h1)

/-- A duplicate-free weakly sorted list of ids is strictly sorted. -/
theorem sorted_lt_of_le_nodup (l : List Nat)
    (hs : List.Sorted (· ≤ ·) l) (hn : l.Nodup) :
    List.Sorted (· < ·) l :=
  (hs.and hn).imp fun h => Nat.lt_of_le_of_ne h.1 h.2

/-- C3: (a) the pending queue is sorted ascending by id before iteration
(strictly, since ids are unique); (b) a watcher enqueued re-entrantly during
the flush is spliced in by the backward scan so that the prefix through the
cursor is untouched, the not-yet-run suffix stays strictly ascending, and
the new watcher lands in that suffix; (c) any watcher pending at or behind
the cursor — in particular one just inserted — is run within the same
flush when the loop drains; (d) with no re-entrant enqueues a flush
processes the watchers of the burst in strictly ascending id order. -/
theorem c3_flush_ascending_order (s : Sched) (t : FState) (id : Nat)
    (dev : Bool) (eff : Nat → List Nat) (active : Nat → Bool) (fuel : Nat) :
    (List.Sorted (· ≤ ·) (initFlush s).queue ∧
      (s.queue.Nodup → List.Sorted (· < ·) (initFlush s).queue)) ∧
    (t.index < t.queue.length →
      List.Sorted (· < ·) (t.queue.drop (t.index + 1)) →
      (∀ a ∈ t.queue.drop (t.index + 1), t.has a = true) →
      t.has id = false →
      (queueDuringFlush id t).queue.take (t.index + 1) =
        t.queue.take (t.index + 1) ∧
      List.Sorted (· < ·) ((queueDuringFlush id t).queue.drop (t.index + 1)) ∧
      id ∈ (queueDuringFlush id t).queue.drop (t.index + 1) ∧
      (∀ y, y ∈ (queueDuringFlush id t).queue.drop (t.index + 1) ↔
        y = id ∨ y ∈ t.queue.drop (t.index + 1))) ∧
    (id ∈ t.queue.drop t.index →
      (flushLoop false eff active fuel t).index =
        (flushLoop false eff active fuel t).queue.length →
      id ∈ (flushLoop false eff active fuel t).processed) ∧
    (s.queue.Nodup → (initFlush s).queue.length ≤ fuel →
      (flushLoop dev (fun _ => []) active fuel (initFlush s)).processed =
        List.insertionSort (· ≤ ·) s.queue ∧
      List.Sorted (· < ·)
        ((flushLoop dev (fun _ => []) active fuel (initFlush s)).processed)) := by
  refine ⟨⟨?_, ?_⟩, ?_, ?_, ?_⟩
  · exact List.sorted_insertionSort _ s.queue
  · intro hnd
    refine sorted_lt_of_le_nodup _ (List.sorted_insertionSort _ s.queue) ?_
    exact ((List.perm_insertionSort _ s.queue).nodup_iff).mpr hnd
  · intro hidx hsort hhastrue hhas
    have hnot : id ∉ t.queue.drop (t.index + 1) := by
      intro hmem
      have := hhastrue id hmem
      rw [hhas] at this
      exact Bool.false_ne_true this
    have hins := insert_into_suffix t.queue t.index id hidx hsort hnot
    have hq : (queueDuringFlush id t).queue =
        insAt (scanBack t.queue t.index id (t.queue.length - 1) + 1) id t.queue := by
      simp [queueDuringFlush, hhas]
    refine ⟨?_, ?_, ?_, ?_⟩
    · rw [hq]; exact hins.2.1
    · rw [hq]; exact hins.2.2.1
    · rw [hq]
      exact (hins.2.2.2 id).mpr (Or.inl rfl)
    · intro y
      rw [hq]
      exact hins.2.2.2 y
  · intro hmem hdone
    exact flushLoop_runs_pending eff active fuel t id hmem hdone
  · intro hnd hfuel
    have hflen : (initFlush s).queue.length ≤ (initFlush s).index + fuel := by
      simpa [initFlush] using hfuel
    have hno := flushLoop_noEff dev active fuel (initFlush s) hflen
    have hproc : (flushLoop dev (fun _ => []) active fuel (initFlush s)).processed =
        List.insertionSort (· ≤ ·) s.queue := by
      rw [hno.2.2.1]
      have h0 : (initFlush s).processed = [] := rfl
      have hdr : (initFlush s).queue.drop (initFlush s).index = (initFlush s).queue := by
        show (initFlush s).queue.drop 0 = (initFlush s).queue
        exact List.drop_zero _
      rw [h0, hdr, List.nil_append]
      rfl
    refine ⟨hproc, ?_⟩
    rw [hproc]
    refine sorted_lt_of_le_nodup _ (List.sorted_insertionSort _ s.queue) ?_
    exact ((List.perm_insertionSort _ s.queue).nodup_iff).mpr hnd

/-- Witness for C3 at concrete states: the burst `[5, 2, 4]` is flushed in
order `[2, 4, 5]`; mid-flush (cursor 0, queue `[5, 2, 4]`) watcher `3` is
spliced into the pending suffix keeping it `[2, 3, 4]`; pending watcher `2`
of a draining flush is indeed processed. -/
theorem c3_flush_ascending_order_witness :
    ((FState.mk [5, 2, 4] (fun x => decide (x = 2 ∨ x = 4)) (fun _ => 0) 0 [] [] false).index <
        (FState.mk [5, 2, 4] (fun x => decide (x = 2 ∨ x = 4)) (fun _ => 0) 0 [] [] false).queue.length ∧
      List.Sorted (· < ·)
        ((FState.mk [5, 2, 4] (fun x => decide (x = 2 ∨ x = 4)) (fun _ => 0) 0 [] [] false).queue.drop 1) ∧
      (FState.mk [5, 2, 4] (fun x => decide (x = 2 ∨ x = 4)) (fun _ => 0) 0 [] [] false).has 3 = false) ∧
    ((queueDuringFlush 3
        (FState.mk [5, 2, 4] (fun x => decide (x = 2 ∨ x = 4)) (fun _ => 0) 0 [] [] false)).queue.take 1 =
        (FState.mk [5, 2, 4] (fun x => decide (x = 2 ∨ x = 4)) (fun _ => 0) 0 [] [] false).queue.take 1 ∧
      List.Sorted (· < ·)
        ((queueDuringFlush 3
          (FState.mk [5, 2, 4] (fun x => decide (x = 2 ∨ x = 4)) (fun _ => 0) 0 [] [] false)).queue.drop 1) ∧
      3 ∈ (queueDuringFlush 3
        (FState.mk [5, 2, 4] (fun x => decide (x = 2 ∨ x = 4)) (fun _ => 0) 0 [] [] false)).queue.drop 1) ∧
    (2 ∈ (flushLoop false (fun _ => []) (fun _ => true) 2
        (FState.mk [1, 2] (fun _ => false) (fun _ => 0) 0 [] [] false)).processed) ∧
    ((flushLoop false (fun _ => []) (fun _ => true) 3
        (initFlush (Sched.mk [5, 2, 4] (fun x => decide (x = 5 ∨ x = 2 ∨ x = 4)) true))).processed =
        List.insertionSort (· ≤ ·) [5, 2, 4] ∧
      List.Sorted (· < ·)
        ((flushLoop false (fun _ => []) (fun _ => true) 3
          (initFlush (Sched.mk [5, 2, 4] (fun x => decide (x = 5 ∨ x = 2 ∨ x = 4)) true))).processed)) := by
  have hb := (c3_flush_ascending_order
    (Sched.mk [5, 2, 4] (fun x => decide (x = 5 ∨ x = 2 ∨ x = 4)) true)
    (FState.mk [5, 2, 4] (fun x => decide (x = 2 ∨ x = 4)) (fun _ => 0) 0 [] [] false)
    3 false (fun _ => []) (fun _ => true) 3).2.1
    (by decide) (by decide) (by decide) (by decide)
  have hc := (c3_flush_ascending_order
    (Sched.mk [5, 2, 4] (fun x => decide (x = 5 ∨ x = 2 ∨ x = 4)) true)
    (FState.mk [1, 2] (fun _ => false) (fun _ => 0) 0 [] [] false)
    2 false (fun _ => []) (fun _ => true) 2).2.2.1
    (by decide) (by decide)
  have hdpart := (c3_flush_ascending_order
    (Sched.mk [5, 2, 4] (fun x => decide (x = 5 ∨ x = 2 ∨ x = 4)) true)
    (FState.mk [1, 2] (fun _ => false) (fun _ => 0) 0 [] [] false)
    2 false (fun _ => []) (fun _ => true) 3).2.2.2
    (by decide) (by decide)
  exact ⟨⟨by decide, by decide, by decide⟩,
    ⟨hb.1, hb.2.1, hb.2.2.1⟩, hc, hdpart⟩

/-- Reduction of a dev-mode flush step at an in-range cursor. -/
theorem flushStep_true_eq (eff : Nat → List Nat) (active : Nat → Bool)
    (s : FState) (hidx : s.index < s.queue.length) :
    flushStep true eff active s =
      (let cur := s.queue.getD s.index 0
       let s1 : FState :=
         { s with
             has := fun x => if x = cur then false else s.has x
             processed := s.processed ++ [cur] }
       let s2 := if active cur then
           runEffects (eff cur) { s1 with invoked := s1.invoked ++ [cur] }
         else s1
       if s2.has cur then
         if MAX_UPDATE_COUNT < s2.circular cur + 1 then
           ({ s2 with
               circular := fun x => if x = cur then s2.circular cur + 1 else s2.circular x
               warned := true }, false)
         else
           ({ s2 with
               circular := fun x => if x = cur then s2.circular cur + 1 else s2.circular x
               index := s2.index + 1 }, true)
       else ({ s2 with index := s2.index + 1 }, true)) := by
  simp only [flushStep, hidx, if_true, Bool.true_and]

/-- The backward scan started right at the cursor stops there. -/
theorem scanBack_self (q : List Nat) (id k : Nat) : scanBack q k id k = k := by
  cases k with
  | zero => rfl
  | succ j =>
    rw [scanBack]
    rw [if_neg]
    intro h
    omega

/-- Reading inside a replicate. -/
theorem getD_replicate_self (w k n : Nat) (h : n < k) :
    (List.replicate k w).getD n 0 = w := by
  rw [List.getD_eq_getElem _ 0 (by simpa using h)]
  exact List.getElem_replicate w _

/-- Appending one more copy via `insAt` at the very end of a replicate. -/
theorem insAt_replicate (w : Nat) : ∀ (n : Nat),
    insAt n w (List.replicate n w) = List.replicate (n + 1) w := by
  intro n
  induction n with
  | zero => rfl
  | succ n ih =>
    show w :: insAt n w (List.replicate n w) = List.replicate (n + 2) w
    rw [ih]
    rfl


/-- Effect of the self-re-enqueue during a circular flush iteration: the
watcher is spliced back in right behind the cursor, growing the replicate
queue by one. -/
theorem circ_s2 (w k : Nat) :
    queueDuringFlush w
      (FState.mk (List.replicate (k + 1) w)
        (fun x => if x = w then false else if x = w then true else false)
        (fun x => if x = w then k else 0) k
        (List.replicate k w ++ [w]) (List.replicate k w ++ [w]) false) =
      FState.mk (List.replicate (k + 2) w)
        (fun x => if x = w then true else
          if x = w then false else if x = w then true else false)
        (fun x => if x = w then k else 0) k
        (List.replicate k w ++ [w]) (List.replicate k w ++ [w]) false := by
  rw [queueDuringFlush]
  rw [if_neg (by simp)]
  simp only [List.length_replicate, Nat.add_sub_cancel, scanBack_self,
    insAt_replicate]

/-- One circular flush iteration below the guard threshold advances
`circState w k` to `circState w (k + 1)`. -/
theorem circ_step_lt (w k : Nat) (hk : k < 100) :
    flushStep true (fun i => [i]) (fun _ => true) (circState w k) =
      (circState w (k + 1), true) := by
  have hidx : (circState w k).index < (circState w k).queue.length := by
    simp [circState]
  rw [flushStep_true_eq _ _ _ hidx]
  have hcur : (List.replicate (k + 1) w).getD k 0 = w :=
    getD_replicate_self w (k + 1) k (by omega)
  simp only [circState, hcur, eq_self_iff_true, if_true, runEffects,
    List.foldl_cons, List.foldl_nil]
  rw [circ_s2]
  rw [if_pos (by simp)]
  rw [if_neg (by simp only [MAX_UPDATE_COUNT, eq_self_iff_true, if_true]; omega)]
  simp only [Prod.mk.injEq, FState.mk.injEq]
  refine ⟨⟨trivial, ?_, ?_, trivial, ?_, ?_, trivial⟩, trivial⟩
  · funext x
    by_cases hx : x = w <;> simp [hx]
  · funext x
    by_cases hx : x = w <;> simp [hx]
  · simp [List.replicate_succ']
  · simp [List.replicate_succ']

/-- The 101st circular iteration (counter reaching 101 > 100) reports the
diagnostic and stops the loop. -/
theorem circ_step_100 (w : Nat) :
    flushStep true (fun i => [i]) (fun _ => true) (circState w 100) =
      (circFinal w, false) := by
  have hidx : (circState w 100).index < (circState w 100).queue.length := by
    simp [circState]
  rw [flushStep_true_eq _ _ _ hidx]
  have hcur : (List.replicate (100 + 1) w).getD 100 0 = w :=
    getD_replicate_self w 101 100 (by omega)
  simp only [circState, hcur, eq_self_iff_true, if_true, runEffects,
    List.foldl_cons, List.foldl_nil]
  rw [circ_s2]
  rw [if_pos (by simp)]
  rw [if_pos (by simp only [MAX_UPDATE_COUNT, eq_self_iff_true, if_true]; omega)]
  simp only [Prod.mk.injEq, FState.mk.injEq, circFinal]
  refine ⟨⟨trivial, ?_, ?_, trivial, ?_, ?_, trivial⟩, trivial⟩
  · funext x
    by_cases hx : x = w <;> simp [hx]
  · funext x
    by_cases hx : x = w <;> simp [hx]
  · rw [show (101 : Nat) = 100 + 1 from rfl, List.replicate_succ' 100 w]
  · rw [show (101 : Nat) = 100 + 1 from rfl, List.replicate_succ' 100 w]

/-- The dev-mode circular flush starting at any intermediate iteration
count reaches the abort state. -/
theorem circ_loop (w : Nat) : ∀ (j k fuel : Nat), k + j = 101 → k ≤ 100 →
    j ≤ fuel →
    flushLoop true (fun i => [i]) (fun _ => true) fuel (circState w k) =
      circFinal w := by
  intro j
  induction j with
  | zero => intro k fuel h hk _; omega
  | succ j ih =>
    intro k fuel h hk hfuel
    cases fuel with
    | zero => omega
    | succ fuel =>
      rw [flushLoop]
      have hidx : (circState w k).index < (circState w k).queue.length := by
        simp [circState]
      rw [if_pos hidx]
      by_cases hklt : k < 100
      · simp only [circ_step_lt w k hklt, if_true]
        exact ih (k + 1) fuel (by omega) (by omega) (by omega)
      · have hk100 : k = 100 := by omega
        subst hk100
        simp only [circ_step_100 w, Bool.false_eq_true, if_false]

/-- Enqueuing one watcher on the reset scheduler and entering the flush
yields the initial circular state. -/
theorem initFlush_single (w : Nat) :
    initFlush (queueWatcher w emptySched) = circState w 0 := by
  have hq : queueWatcher w emptySched =
      Sched.mk [w] (fun x => if x = w then true else false) true := by
    simp [queueWatcher, emptySched]
  rw [hq]
  simp only [initFlush, circState, FState.mk.injEq]
  repeat' apply And.intro
  all_goals
    first
      | trivial
      | rfl
      | (funext x; by_cases hx : x = w <;> simp [hx])

/-- C9: in dev mode, a watcher whose run re-enqueues itself is counted per
id in `circular`; after the 101st iteration (counter 101, exceeding
`MAX_UPDATE_COUNT = 100`) the loop is aborted with the diagnostic
reported; the abort is a plain early return (this model throws nothing):
the 101 already-performed runs stay in the logs, the queue is left
undrained, and `flushSchedulerQueue` still resets the scheduler state
afterwards. -/
theorem c9_circular_update_guard (w fuel : Nat) (hfuel : 101 ≤ fuel) :
    (flushSchedulerQueue true (fun i => [i]) (fun _ => true) fuel
      (queueWatcher w emptySched)).1 = circFinal w ∧
    (circFinal w).warned = true ∧
    (circFinal w).circular w = 101 ∧
    MAX_UPDATE_COUNT < (circFinal w).circular w ∧
    (circFinal w).invoked = List.replicate 101 w ∧
    (circFinal w).processed = List.replicate 101 w ∧
    (circFinal w).index < (circFinal w).queue.length ∧
    (flushSchedulerQueue true (fun i => [i]) (fun _ => true) fuel
      (queueWatcher w emptySched)).2 = emptySched := by
  refine ⟨?_, ?_, ?_, ?_, rfl, rfl, ?_, rfl⟩
  · show flushLoop true (fun i => [i]) (fun _ => true) fuel
      (initFlush (queueWatcher w emptySched)) = circFinal w
    rw [initFlush_single w]
    exact circ_loop w 101 0 fuel rfl (by omega) hfuel
  · rfl
  · simp [circFinal]
  · simp [circFinal, MAX_UPDATE_COUNT]
  · simp [circFinal]

/-- Witness for C9: watcher `3` with fuel `101`. -/
theorem c9_circular_update_guard_witness :
    101 ≤ 101 ∧
    ((flushSchedulerQueue true (fun i => [i]) (fun _ => true) 101
        (queueWatcher 3 emptySched)).1 = circFinal 3 ∧
      (circFinal 3).warned = true ∧
      (circFinal 3).circular 3 = 101 ∧
      MAX_UPDATE_COUNT < (circFinal 3).circular 3 ∧
      (circFinal 3).invoked = List.replicate 101 3 ∧
      (circFinal 3).processed = List.replicate 101 3 ∧
      (circFinal 3).index < (circFinal 3).queue.length ∧
      (flushSchedulerQueue true (fun i => [i]) (fun _ => true) 101
        (queueWatcher 3 emptySched)).2 = emptySched) :=
  ⟨by omega, c9_circular_update_guard 3 101 (by omega)⟩
